import Mathlib

/-!
# Huffman compressor (`huffman.c`, `main.c`): shallow embedding

Bytes are natural numbers below 256 and a file is the list of its bytes.
The linked list of nodes threaded through `Node.next` is a `List Node`, head
first; the tree hanging below a node is the inductive value itself.

Machine integers:
* `uint32_t code` and the `uint8_t` counters (`len`, `bit_count`, the loop
  index of `search_symbol` / `search_code`, the accumulator of `write_bit`)
  wrap, and the wrap is written out with `%`;
* `size_t` / `uint64_t` counters (`freqs`, `count`, `buf->len`) count bytes of
  one in-memory buffer and cannot wrap; they are plain naturals. They are cut
  to 64 bits where they are written to the file (`u64_bytes`).
* Multi-byte objects are written and read in the byte order of the host, taken
  to be little-endian.

A run that dereferences a null pointer, touches memory outside an object or
never leaves a loop has no result; it is reported as a `Fault`. Calls of
`malloc` are taken to succeed, except the one in `read_codebook` whose size
comes from the file (`table_room`).
-/

namespace Huffman

/-! ## Constants of `huffman.h` -/

/-- The macro `GROUP_SEPARATOR`. -/
def GROUP_SEPARATOR : Nat := 0x29

/-- The macro `FILE_SIGN`, the ASCII bytes of "HUFFBOOK". -/
def FILE_SIGN : List Nat := [0x48, 0x55, 0x46, 0x46, 0x42, 0x4f, 0x4f, 0x4b]

/-- The macro `FILE_SIGN_LEN`. -/
def FILE_SIGN_LEN : Nat := FILE_SIGN.length

/-- Ways in which a run ends without a result. -/
inductive Fault where
  | null_deref
  | out_of_bounds
  | endless_loop
  | invalid_signature
  | invalid_header
  | invalid_format
  deriving DecidableEq, Repr

/-! ## Nodes and the sorted list (`new_node`, `add_node`) -/

/-- A `Node` together with the tree below it. A leaf is a node made by
`new_node(symbol, freqs)` whose `is_leaf` was set; an inner node is made by
`new_node(0x00, freqs)` in `build_tree`, which fills both `children`. -/
inductive Node where
  | leaf (symbol : Nat) (freqs : Nat)
  | inner (freqs : Nat) (c0 c1 : Node)
  deriving DecidableEq, Repr

/-- The field `freqs`. -/
def Node.freqs : Node → Nat
  | .leaf _ f => f
  | .inner f _ _ => f

/-- The field `is_leaf`. -/
def Node.is_leaf : Node → Bool
  | .leaf _ _ => true
  | .inner _ _ _ => false

/-- The `while` loop of `add_node`: `head` advances while the node after it
has a smaller frequency, then `node` is linked in right after `head`. The
second argument is the list hanging on `head->next`. -/
def add_node_walk (node : Node) : Node → List Node → List Node
  | head, [] => [head, node]
  | head, nxt :: rest =>
    if nxt.freqs < node.freqs then head :: add_node_walk node nxt rest
    else head :: node :: nxt :: rest

/-- The function `add_node(root, node)`; `node->next` is `NULL` on entry. -/
def add_node (root : List Node) (node : Node) : List Node :=
  match root with
  | [] => [node]
  | r :: rest =>
    if node.freqs ≤ r.freqs then node :: r :: rest
    else add_node_walk node r rest

/-! ## Frequency table (`init_symbol_list`, `init_tree_from_buf`) -/

/-- The loop of `init_symbol_list`, with `list[0 .. count)` as a list: a byte
is appended unless it equals the last byte appended. -/
def init_symbol_loop : List Nat → List Nat → List Nat
  | [], list => list
  | c :: buf, list =>
    if list.length = 0 ∨ c ≠ list.getLast?.getD 0 then init_symbol_loop buf (list ++ [c])
    else init_symbol_loop buf list

/-- The function `init_symbol_list(buf, &count)`; the new `count` is the
length of the result. The function starts from `*counter`, and its caller
passes `&tree->num_symbols` of a `Tree` it has just allocated and not written.
This is the run in which that word holds 0; with any other value the loop
reads and fills `list` from that index on, and nothing is stated here about
such a run. -/
def init_symbol_list (buf : List Nat) : List Nat :=
  init_symbol_loop buf []

/-- The inner loop of the counting pass of `init_tree_from_buf`: the first
`j` with `c == symbols[j]` gets `occurs[j]++`, then `break`. -/
def count_occurrence (c : Nat) : List Nat → List Nat → List Nat
  | s :: symbols, o :: occurs =>
    if c = s then (o + 1) :: occurs else o :: count_occurrence c symbols occurs
  | _, occurs => occurs

/-- The counting pass of `init_tree_from_buf` over the whole buffer. -/
def count_occurrences (symbols : List Nat) : List Nat → List Nat → List Nat
  | [], occurs => occurs
  | c :: buf, occurs => count_occurrences symbols buf (count_occurrence c symbols occurs)

/-- The loop of `init_tree_from_buf` that makes one leaf per entry of
`symbols` and links it in with `add_node`. -/
def add_leaves : List Nat → List Nat → List Node → List Node
  | s :: symbols, o :: occurs, root => add_leaves symbols occurs (add_node root (Node.leaf s o))
  | _, _, root => root

/-- The struct `Tree`: `root` is the head of the node list (the empty list is
`NULL`), `num_symbols` the count set by `init_symbol_list`. -/
structure Tree where
  root : List Node
  num_symbols : Nat
  deriving DecidableEq, Repr

/-- The function `init_tree_from_buf(buf)`. -/
def init_tree_from_buf (buf : List Nat) : Tree :=
  let symbols := init_symbol_list buf
  let occurs := count_occurrences symbols buf (List.replicate symbols.length 0)
  { root := add_leaves symbols occurs [], num_symbols := symbols.length }

/-! ## Tree construction (`build_tree`) -/

/-- One pass through the body of the `for` loop of `build_tree` followed by
its step `head = head->next`, on a list with at least two nodes: the new
inner node gets `head` and `head->next` as children, `head->next` is unlinked,
the node is added to the list that still starts at `head`, and the first node
of the resulting list is stepped over. The `next` field of a node that has
left the list is not read again, so clearing it changes nothing here. -/
def build_step (a b : Node) (rest : List Node) : List Node :=
  (add_node (a :: rest) (Node.inner (a.freqs + b.freqs) a b)).tail

/-- The `for` loop of `build_tree`, one unit of fuel per pass. An empty list
is `head == NULL`, whose `head->next` cannot be read. -/
def build_loop : Nat → List Node → Option Node
  | _, [] => none
  | _, [x] => some x
  | 0, _ :: _ :: _ => none
  | fuel + 1, a :: b :: rest => build_loop fuel (build_step a b rest)

/-- The function `build_tree(tree)`, as the new `tree->root`; `none` is the
null dereference on an empty list. Every pass shortens the list by one node,
so the length of the list is enough fuel. -/
def build_tree (root : List Node) : Option Node :=
  build_loop root.length root

/-! ## Codebook (`dfs`, `tree2book`, `search_symbol`, `search_code`) -/

/-- The struct `CodeTable`. -/
structure CodeTable where
  symbol : Nat
  code : Nat
  num_bits : Nat
  deriving DecidableEq, Repr

/-- The function `dfs(book, node, code, len)`; `book` is `book->table[0 ..
book->num_symbols)`. `code` is a `uint32_t` and `len` a `uint8_t`. -/
def dfs (book : List CodeTable) : Node → Nat → Nat → List CodeTable
  | .leaf symbol _, code, len => book ++ [{ symbol := symbol, code := code, num_bits := len }]
  | .inner _ c0 c1, code, len =>
    let len := (len + 1) % 256
    let code := (code <<< 1) % 2 ^ 32
    dfs (dfs book c0 code len) c1 ((code + 1) % 2 ^ 32) len

/-- The function `tree2book(tree)`. The table has room for
`tree->num_symbols` entries, which `init_tree_from_buf` sets to the number of
leaves it links in. -/
def tree2book (root : Node) : List CodeTable :=
  dfs [] root 0 0

/-- The scan shared by `search_symbol` and `search_code`:
`for (uint8_t i = 0; i < book->num_symbols; i++) if (p(book->table[i])) return
book->table[i]; return NULL;`. The index wraps from 255 to 0. -/
def search_loop (book : List CodeTable) (p : CodeTable → Bool) :
    Nat → Nat → Except Fault (Option CodeTable)
  | 0, _ => .error .endless_loop
  | fuel + 1, i =>
    match book.get? i with
    | none => .ok none
    | some t => if p t then .ok (some t) else search_loop book p fuel ((i + 1) % 256)

/-- The function `search_symbol(book, symbol)`. The index has 256 values and
the scan no other state, so a scan that has not returned after 256 passes
never returns. -/
def search_symbol (book : List CodeTable) (symbol : Nat) : Except Fault (Option CodeTable) :=
  search_loop book (fun t => t.symbol == symbol) 256 0

/-- The function `search_code(book, code, len)`. -/
def search_code (book : List CodeTable) (code len : Nat) : Except Fault (Option CodeTable) :=
  search_loop book (fun t => t.code == code && t.num_bits == len) 256 0

/-! ## Bit writer (`write_bit`, `write_code`) -/

/-- The two `static` locals of `write_bit`. -/
structure BitWriter where
  byte : Nat
  bit_idx : Nat
  deriving DecidableEq, Repr

/-- The initial values of the statics of `write_bit`. -/
def BitWriter.fresh : BitWriter := { byte := 0x00, bit_idx := 8 }

/-- The function `write_bit(bit, fp)`; the file is the bytes written so far.
Both statics are `uint8_t`. -/
def write_bit (bit : Nat) (st : BitWriter × List Nat) : BitWriter × List Nat :=
  let bit_idx := (st.1.bit_idx + 255) % 256
  let byte := (st.1.byte ||| (bit <<< bit_idx)) % 256
  if bit_idx = 0 then ({ byte := 0x00, bit_idx := 8 }, st.2 ++ [byte])
  else ({ byte := byte, bit_idx := bit_idx }, st.2)

/-- The loop of `write_code` from index `i` on, with one unit of fuel per
pass. For `num_bits ≤ 32` every shift is by less than the width of `code`. A
shift of the 32-bit `code` by 32 or more has no defined value in C; it is
written here as the plain shift of the number, and the statements about the
bits written carry the bound `num_bits ≤ 32`. -/
def write_code_loop (table : CodeTable) : Nat → Nat → BitWriter × List Nat → BitWriter × List Nat
  | 0, _, st => st
  | fuel + 1, i, st =>
    let bit := (table.code >>> (table.num_bits - i - 1)) &&& 0x01
    write_code_loop table fuel (i + 1) (write_bit bit st)

/-- The function `write_code(table, fp)`: the loop makes `num_bits` passes. -/
def write_code (table : CodeTable) (st : BitWriter × List Nat) : BitWriter × List Nat :=
  write_code_loop table table.num_bits 0 st

/-! ## Container writer (`compress`) -/

/-- The first `k` bytes of the object that holds `n`, low byte first. -/
def le_bytes (n : Nat) : Nat → List Nat
  | 0 => []
  | k + 1 => n % 256 :: le_bytes (n / 256) k

/-- The value of an object whose bytes are `bs`, low byte first. -/
def le_value : List Nat → Nat
  | [] => 0
  | b :: bs => b + 256 * le_value bs

/-- The bytes of `fwrite(&x, sizeof(uint64_t), 1, fp)`. -/
def u64_bytes (n : Nat) : List Nat := le_bytes n 8

/-- The number of bytes of a code of `num_bits` bits, as `compress` and
`read_codebook` compute it. -/
def code_size (num_bits : Nat) : Nat :=
  num_bits / 8 + (if num_bits % 8 ≠ 0 then 1 else 0)

/-- The loop of `compress` over the codebook. The `uint32_t` field `code` has
four bytes; a longer `fwrite` from `&code` leaves the field. -/
def write_tables : List CodeTable → List Nat → Except Fault (List Nat)
  | [], fp => .ok fp
  | t :: book, fp =>
    let bytes := code_size t.num_bits
    if 4 < bytes then .error .out_of_bounds
    else write_tables book (((fp ++ [t.symbol]) ++ [t.num_bits]) ++ le_bytes t.code bytes)

/-- The loop of `compress` over the buffer: a byte without a table is
skipped. -/
def write_data (book : List CodeTable) :
    List Nat → Nat → BitWriter × List Nat → Except Fault (Nat × (BitWriter × List Nat))
  | [], count, st => .ok (count, st)
  | c :: buf, count, st =>
    match search_symbol book c with
    | .error e => .error e
    | .ok none => write_data book buf count st
    | .ok (some table) => write_data book buf (count + table.num_bits) (write_code table st)

/-- The function `compress(fp, buf, book)`: the statics of `write_bit` on
entry and the bytes already in the file are arguments, their values on return
the result. -/
def compress (st : BitWriter × List Nat) (buf : List Nat) (book : List CodeTable) :
    Except Fault (BitWriter × List Nat) :=
  let fp := st.2 ++ FILE_SIGN
  let fp := fp ++ u64_bytes book.length
  match write_tables book fp with
  | .error e => .error e
  | .ok fp =>
    let fp := fp ++ [GROUP_SEPARATOR]
    let fp := fp ++ u64_bytes buf.length
    let fp := fp ++ [GROUP_SEPARATOR]
    match write_data book buf 0 (st.1, fp) with
    | .error e => .error e
    | .ok (count, w, fp) =>
      let fp := fp ++ [GROUP_SEPARATOR]
      .ok (w, fp ++ u64_bytes count)

/-! ## Container reader (`read_codebook`, `decode`) -/

/-- The loop of `read_codebook`. A `fread` at the end of the file leaves the
field at the value `new_codetable` gave it; a `fread` of more than four bytes
into `&code` leaves the field. -/
def read_tables : Nat → List Nat → Except Fault (List CodeTable × List Nat)
  | 0, fp => .ok ([], fp)
  | n + 1, fp =>
    let symbol := fp.headD 0x00
    let fp := fp.tail
    let num_bits := fp.headD 0
    let fp := fp.tail
    let bytes := code_size num_bits
    if 4 < bytes then .error .out_of_bounds
    else
      let code := le_value (fp.take bytes)
      match read_tables n (fp.drop bytes) with
      | .error e => .error e
      | .ok (book, fp) => .ok ({ symbol := symbol, code := code, num_bits := num_bits } :: book, fp)

/-- The function `read_codebook(fp)` on a file given by all its bytes, in a
run in which `book->table` was allocated with room for `num_symbols`
pointers; the result is the codebook and the bytes after the position of
`fp`. The other outcomes of the allocation are in `read_codebook_or_null`. -/
def read_codebook (file : List Nat) : Except Fault (List CodeTable × List Nat) :=
  let fp := file.drop FILE_SIGN_LEN
  let num_symbols := le_value (fp.take 8)
  read_tables num_symbols (fp.drop 8)

/-- The call `malloc(book->num_symbols * sizeof(CodeTable *))` of
`read_codebook`. The size is computed in 64 bits. No host grants a request of
`2 ^ 63` bytes or more: the result is `NULL` (`none`). Any other request is
taken to be granted; the result is the number of pointers it has room for. -/
def table_room (num_symbols : Nat) : Option Nat :=
  let size := (num_symbols * 8) % 2 ^ 64
  if 2 ^ 63 ≤ size then none else some (size / 8)

/-- The call `read_codebook(fp)` as `decode` sees it. When the table is not
allocated the function prints a message and returns `NULL` (`none`) with the
file position right after the count. When the size wrapped and the table is
too small for `num_symbols` pointers, the loop stores outside it. -/
def read_codebook_or_null (file : List Nat) :
    Except Fault (Option (List CodeTable) × List Nat) :=
  let fp := file.drop FILE_SIGN_LEN
  let num_symbols := le_value (fp.take 8)
  match table_room num_symbols with
  | none => .ok (none, fp.drop 8)
  | some room =>
    if room < num_symbols then .error .out_of_bounds
    else
      match read_codebook file with
      | .error e => .error e
      | .ok (book, fp) => .ok (some book, fp)

/-- The body of the inner loop of `decode` for one bit: `(bits, bit_count,
data)` with `data[0 .. data_len)` as a list. -/
def decode_bit (book : List CodeTable) (bit_i : Nat) (st : Nat × Nat × List Nat) :
    Except Fault (Nat × Nat × List Nat) :=
  let bits := ((st.1 <<< 1) % 2 ^ 32) ||| bit_i
  let bit_count := (st.2.1 + 1) % 256
  match search_code book bits bit_count with
  | .error e => .error e
  | .ok (some table) => .ok (0, 0, st.2.2 ++ [table.symbol])
  | .ok none => .ok (bits, bit_count, st.2.2)

/-- The loop `for (int i = 7; 0 <= i; i--)` of `decode`; the first argument
is `i + 1`. -/
def decode_byte (book : List CodeTable) (byte : Nat) :
    Nat → Nat × Nat × List Nat → Except Fault (Nat × Nat × List Nat)
  | 0, st => .ok st
  | i + 1, st =>
    let mask := 1 <<< i
    let bit_i := (byte &&& mask) >>> i
    match decode_bit book bit_i st with
    | .error e => .error e
    | .ok st => decode_byte book byte i st

/-- The `while` loop of `decode` over the bytes at the position of `fp`. The
second component is `none` when the loop ended because `fread` met the end of
the file, else the bytes after the separator that ended it. -/
def decode_data (book : List CodeTable) :
    List Nat → Nat × Nat × List Nat → Except Fault ((Nat × Nat × List Nat) × Option (List Nat))
  | [], st => .ok (st, none)
  | byte :: fp, st =>
    if byte = GROUP_SEPARATOR then .ok (st, some fp)
    else
      match decode_byte book byte 8 st with
      | .error e => .error e
      | .ok st => decode_data book fp st

/-- The `while` loop of `decode` when `book` is `NULL`: the first pass of
the inner loop calls `search_code`, which reads `book->num_symbols`. -/
def decode_data_null : List Nat → Except Fault ((Nat × Nat × List Nat) × Option (List Nat))
  | [] => .ok ((0, 0, []), none)
  | byte :: fp =>
    if byte = GROUP_SEPARATOR then .ok ((0, 0, []), some fp) else .error .null_deref

/-- The part of `decode` after the call of `read_codebook`, which returned
`book` (`none` for `NULL`; `decode` does not test it) and left the file
position on `fp`. The array `data` has `origin_len` elements: a run that
stores more symbols than that has written outside it. A separator `fread`
that meets the end of the file is taken as a mismatch: `byte` is not
initialised before the first of them, but were it to hold 0x29 by chance the
second one, made after `byte = 0x00`, fails all the same. -/
def decode_body (book : Option (List CodeTable)) (fp : List Nat) : Except Fault (List Nat) :=
  match fp with
  | [] => .error .invalid_header
  | byte :: fp =>
    if byte ≠ GROUP_SEPARATOR then .error .invalid_header
    else
      let origin_len := le_value (fp.take 8)
      match fp.drop 8 with
      | [] => .error .invalid_header
      | byte :: fp =>
        if byte ≠ GROUP_SEPARATOR then .error .invalid_header
        else
          let loop :=
            match book with
            | some book => decode_data book fp (0, 0, [])
            | none => decode_data_null fp
          match loop with
          | .error e => .error e
          | .ok (st, rest) =>
            if origin_len < st.2.2.length then .error .out_of_bounds
            else
              match rest with
              | none => .error .invalid_format
              | some fp => if fp.length < 8 then .error .invalid_format else .ok st.2.2

/-- The function `decode(fp, save)` on a file given by all its bytes; the
result is `data[0 .. data_len)`, what is written out. A signature cut short
is taken as a mismatch. The buffer `sign` comes from
`malloc(sizeof(uint8_t))` and receives 8 bytes; the allocation is taken to
have room for them, as every run that gets past the signature needs. -/
def decode (file : List Nat) : Except Fault (List Nat) :=
  if file.take FILE_SIGN_LEN ≠ FILE_SIGN then .error .invalid_signature
  else
    match read_codebook_or_null file with
    | .error e => .error e
    | .ok (book, fp) => decode_body book fp

/-! ## The driver (`encode` of `main.c`) -/

/-- The loop `for (uint8_t i = 0; i < tree->num_symbols; i++)
print_table(book->table[i]);` of `encode`. The table was made by
`calloc(tree->num_symbols, ..)`, so a slot `dfs` did not fill is `NULL`. -/
def print_tables (num_symbols : Nat) (book : List CodeTable) : Nat → Nat → Except Fault Unit
  | 0, _ => .error .endless_loop
  | fuel + 1, i =>
    if i < num_symbols then
      match book.get? i with
      | none => .error .null_deref
      | some _ => print_tables num_symbols book fuel ((i + 1) % 256)
    else .ok ()

/-- The function `encode(fp, buf)`. -/
def encode (st : BitWriter × List Nat) (buf : List Nat) : Except Fault (BitWriter × List Nat) :=
  let tree := init_tree_from_buf buf
  match build_tree tree.root with
  | none => .error .null_deref
  | some root =>
    let book := tree2book root
    match print_tables tree.num_symbols book 256 0 with
    | .error e => .error e
    | .ok _ => compress st buf book

/-- The file `out.bin` that `main` hands to `decode`: written by the one call
of `encode` of the process, into an empty file. -/
def encode_file (buf : List Nat) : Except Fault (List Nat) :=
  match encode (BitWriter.fresh, []) buf with
  | .error e => .error e
  | .ok st => .ok st.2

/-- The two halves of `main`: encode into `out.bin`, then decode it. -/
def encode_decode (buf : List Nat) : Except Fault (List Nat) :=
  match encode_file buf with
  | .error e => .error e
  | .ok file => decode file

/-! ## Evaluation support -/

instance instDecidableEqExcept {ε α : Type} [DecidableEq ε] [DecidableEq α] :
    DecidableEq (Except ε α) := fun a b =>
  match a, b with
  | .ok x, .ok y =>
    if h : x = y then isTrue (by rw [h]) else isFalse (by intro h2; cases h2; exact h rfl)
  | .error x, .error y =>
    if h : x = y then isTrue (by rw [h]) else isFalse (by intro h2; cases h2; exact h rfl)
  | .ok _, .error _ => isFalse (by intro h2; cases h2)
  | .error _, .ok _ => isFalse (by intro h2; cases h2)

/-! ## Notions used to state the properties -/

/-- The bytes of one codebook entry in the container: the symbol, the code
length, and the low `code_size num_bits` bytes of the code. -/
def table_bytes (t : CodeTable) : List Nat :=
  [t.symbol, t.num_bits] ++ le_bytes t.code (code_size t.num_bits)

/-- The code length `compress` uses for the byte `c`: the `num_bits` of the
first entry of the codebook with that symbol, and nothing for a byte without
an entry. -/
def assigned_length (book : List CodeTable) (c : Nat) : Nat :=
  match book.find? (fun t => t.symbol == c) with
  | some t => t.num_bits
  | none => 0

/-- The `k` low bits of `code`, most significant first, each read the way
`write_code` reads it: `(code >> j) & 0x01` for `j = k - 1, .., 0`. -/
def code_bits_from (code : Nat) : Nat → List Nat
  | 0 => []
  | k + 1 => ((code >>> k) &&& 0x01) :: code_bits_from code k

/-- The code of a codebook entry read as a bit string of `num_bits` bits. -/
def code_bits (t : CodeTable) : List Nat :=
  code_bits_from t.code t.num_bits

/-- The depth of the deepest leaf below a node. -/
def Node.height : Node → Nat
  | .leaf _ _ => 0
  | .inner _ c0 c1 => max c0.height c1.height + 1

/-- The leaves below a node, left to right, each with its symbol and the path
from the node to it: 0 for a step to `children[0]`, 1 for a step to
`children[1]`. -/
def Node.paths : Node → List (Nat × List Nat)
  | .leaf symbol _ => [(symbol, [])]
  | .inner _ c0 c1 =>
    c0.paths.map (fun sp => (sp.1, 0 :: sp.2)) ++ c1.paths.map (fun sp => (sp.1, 1 :: sp.2))

/-- The number a path spells, first step most significant. -/
def path_value : List Nat → Nat
  | [] => 0
  | b :: p => b * 2 ^ p.length + path_value p

/-- The entry `dfs` records for a leaf reached by the path `sp.2` from a node
visited with `code` and `len`. -/
def path_entry (code len : Nat) (sp : Nat × List Nat) : CodeTable :=
  { symbol := sp.1
    code := (code * 2 ^ sp.2.length + path_value sp.2) % 2 ^ 32
    num_bits := (len + sp.2.length) % 256 }

/-- Neither of two bit strings is a prefix of the other. -/
def unrelated (p q : List Nat) : Prop :=
  ¬ p <+: q ∧ ¬ q <+: p

/-- A run of calls of `write_bit`, one per bit of the list. -/
def write_bits (bits : List Nat) (st : BitWriter × List Nat) : BitWriter × List Nat :=
  bits.foldl (fun st bit => write_bit bit st) st

/-- The bits `decode` takes out of `byte` in the passes `i = k - 1, .., 0` of
its inner loop: `(byte & (1 << i)) >> i`. -/
def byte_bits_from (byte : Nat) : Nat → List Nat
  | 0 => []
  | i + 1 => ((byte &&& (1 <<< i)) >>> i) :: byte_bits_from byte i

/-- The eight bits of a byte, most significant first. -/
def byte_bits (byte : Nat) : List Nat :=
  byte_bits_from byte 8

/-- A run of passes of the inner loop body of `decode`, one per bit of the
list. -/
def decode_bits (book : List CodeTable) :
    List Nat → Nat × Nat × List Nat → Except Fault (Nat × Nat × List Nat)
  | [], st => .ok st
  | bit :: bits, st =>
    match decode_bit book bit st with
    | .error e => .error e
    | .ok st => decode_bits book bits st

/-- The bits `compress` writes for the byte `c`: the code of the first entry
of the codebook with that symbol, and nothing for a byte without an entry. -/
def symbol_bits (book : List CodeTable) (c : Nat) : List Nat :=
  match book.find? (fun t => t.symbol == c) with
  | some t => code_bits t
  | none => []

instance instDecidableUnrelated (p q : List Nat) : Decidable (unrelated p q) :=
  inferInstanceAs (Decidable (¬ p <+: q ∧ ¬ q <+: p))

/-- The leaves below a node, left to right, each as (symbol, frequency)
together with its path from the node. -/
def Node.leaf_paths : Node → List ((Nat × Nat) × List Nat)
  | .leaf symbol freqs => [((symbol, freqs), [])]
  | .inner _ c0 c1 =>
    c0.leaf_paths.map (fun x => (x.1, 0 :: x.2)) ++ c1.leaf_paths.map (fun x => (x.1, 1 :: x.2))

/-- The leaves below a node as (symbol, frequency) pairs. -/
def Node.leaves (t : Node) : List (Nat × Nat) :=
  t.leaf_paths.map (fun x => x.1)

/-- The weighted path length of a tree: the sum over its leaves of
frequency x depth. -/
def Node.wpl (t : Node) : Nat :=
  (t.leaf_paths.map (fun x => x.1.2 * x.2.length)).sum

/-- The sum of the frequencies of the leaves below a node. -/
def Node.weight (t : Node) : Nat :=
  (t.leaf_paths.map (fun x => x.1.2)).sum

/-- Every inner node carries the sum of the frequencies of its two
children. -/
def Node.consistent : Node → Prop
  | .leaf _ _ => True
  | .inner f c0 c1 => f = c0.freqs + c1.freqs ∧ c0.consistent ∧ c1.consistent

/-- The node list after `add_node` linked in one leaf per (symbol, frequency)
pair, in the order of the list. -/
def leaf_list (leaves : List (Nat × Nat)) : List Node :=
  leaves.foldl (fun root sf => add_node root (Node.leaf sf.1 sf.2)) []

/-- The weighted length of a codebook for the given (symbol, frequency)
pairs: the sum of frequency x code length assigned to the symbol. -/
def weighted_length (leaves : List (Nat × Nat)) (book : List CodeTable) : Nat :=
  (leaves.map (fun sf => sf.2 * assigned_length book sf.1)).sum

/-- The sum of weight x depth over (weight, depth) pairs. -/
def pair_cost (P : Multiset (Nat × Nat)) : Nat :=
  (P.map (fun x => x.1 * x.2)).sum

/-- The depths of the leaves below a node. -/
def Node.depths (t : Node) : Multiset Nat :=
  ((t.leaf_paths.map (fun x => x.2.length) : List Nat) : Multiset Nat)

/-- The depths of the leaves of some binary tree. -/
def is_shape (M : Multiset Nat) : Prop :=
  ∃ t : Node, t.depths = M

/-- Ascending order of frequency along the node list. -/
def sorted_freqs (l : List Node) : Prop :=
  List.Pairwise (fun a b : Node => a.freqs ≤ b.freqs) l

/-- The (frequency, depth) pairs of the leaves below a node. -/
def Node.profile (t : Node) : Multiset (Nat × Nat) :=
  ((t.leaf_paths.map (fun x => (x.1.2, x.2.length)) : List (Nat × Nat)) : Multiset (Nat × Nat))

/-- The node list of 34 leaves with the frequencies 1, 1, 1, 2, 3, 5, .. (each
the sum of the two before it), linked in with `add_node` in this order. -/
def deep_leaves : List Node :=
  leaf_list [(0, 1), (1, 1), (2, 1), (3, 2), (4, 3), (5, 5), (6, 8), (7, 13), (8, 21), (9, 34),
    (10, 55), (11, 89), (12, 144), (13, 233), (14, 377), (15, 610), (16, 987), (17, 1597),
    (18, 2584), (19, 4181), (20, 6765), (21, 10946), (22, 17711), (23, 28657), (24, 46368),
    (25, 75025), (26, 121393), (27, 196418), (28, 317811), (29, 514229), (30, 832040),
    (31, 1346269), (32, 2178309), (33, 3524578)]

/-- The container `encode` writes for "AAAABCCCDDE", with the original-length
field set to 1 instead of 11. -/
def short_length_file : List Nat :=
  FILE_SIGN ++ [5, 0, 0, 0, 0, 0, 0, 0]
    ++ [0x41, 1, 0] ++ [0x43, 2, 2] ++ [0x45, 4, 12] ++ [0x42, 4, 13] ++ [0x44, 3, 7]
    ++ [GROUP_SEPARATOR] ++ [1, 0, 0, 0, 0, 0, 0, 0] ++ [GROUP_SEPARATOR]
    ++ [0x0d, 0xab, 0xfc] ++ [GROUP_SEPARATOR] ++ [24, 0, 0, 0, 0, 0, 0, 0]

/-- A codebook with one entry per byte value: the byte itself as an 8-bit
code. -/
def full_book : List CodeTable :=
  (List.range 256).map (fun s => { symbol := s, code := s, num_bits := 8 })

/-- The number of inner nodes of the tree below a node, the node included. -/
def Node.inner_count : Node → Nat
  | .leaf _ _ => 0
  | .inner _ c0 c1 => c0.inner_count + c1.inner_count + 1

/-- The number of nodes of the tree below a node, the node included. -/
def Node.node_count : Node → Nat
  | .leaf _ _ => 1
  | .inner _ c0 c1 => c0.node_count + c1.node_count + 1

/-- The bytes a run of bits packs into: consecutive groups of 8 bits, the
first bit of a group in the most significant position of its byte. Fewer than
8 bits at the end make no byte. -/
def pack_bits : List Nat → List Nat
  | b7 :: b6 :: b5 :: b4 :: b3 :: b2 :: b1 :: b0 :: rest =>
    (128 * b7 + 64 * b6 + 32 * b5 + 16 * b4 + 8 * b3 + 4 * b2 + 2 * b1 + b0) :: pack_bits rest
  | _ => []

/-- The bits of a run that are left over after its groups of 8. -/
def pending_bits : List Nat → List Nat
  | _ :: _ :: _ :: _ :: _ :: _ :: _ :: _ :: rest => pending_bits rest
  | bits => bits

/-- The statics of `write_bit` while the bits `p`, fewer than 8, wait for
their byte: they sit in the high-order positions of `byte`, the first one
foremost, and `bit_idx` counts the positions that are still free. -/
def BitWriter.holding (p : List Nat) : BitWriter :=
  { byte := path_value p * 2 ^ (8 - p.length), bit_idx := 8 - p.length }

/-- The nodes in the order in which the loop of `build_tree` takes them off
the list: in each pass `head`, then `head->next`. The node left when the loop
ends, the root, comes last. The fuel is that of `build_loop`. -/
def take_order : Nat → List Node → List Node
  | _, [] => []
  | _, [x] => [x]
  | 0, _ :: _ :: _ => []
  | fuel + 1, a :: b :: rest => a :: b :: take_order fuel (build_step a b rest)

/-! ## The scans return -/

theorem search_loop_eq_find (book : List CodeTable) (p : CodeTable → Bool)
    (hlen : book.length < 256) :
    ∀ (fuel i : Nat), i ≤ book.length → book.length - i < fuel →
      search_loop book p fuel i = .ok ((book.drop i).find? p) := by
  intro fuel
  induction fuel with
  | zero => intro i _ h; omega
  | succ fuel ih =>
    intro i hi hf
    rw [search_loop]
    rcases Nat.lt_or_ge i book.length with h | h
    · have hget : book.get? i = some book[i] := by simp [List.getElem?_eq_getElem h]
      have hdrop : book.drop i = book[i] :: book.drop (i + 1) := List.drop_eq_getElem_cons h
      rw [hget, hdrop]
      generalize book[i] = t
      simp only [List.find?_cons]
      cases hp : p t
      · have hmod : (i + 1) % 256 = i + 1 := Nat.mod_eq_of_lt (by omega)
        simp only [Bool.false_eq_true, if_false, hmod]
        exact ih (i + 1) (by omega) (by omega)
      · simp
    · have hget : book.get? i = none := List.get?_eq_none.mpr h
      have hdrop : book.drop i = [] := List.drop_eq_nil_of_le h
      rw [hget, hdrop]
      rfl

theorem search_symbol_eq_find (book : List CodeTable) (symbol : Nat) (hlen : book.length < 256) :
    search_symbol book symbol = .ok (book.find? (fun t => t.symbol == symbol)) := by
  have h := search_loop_eq_find book (fun t => t.symbol == symbol) hlen 256 0 (Nat.zero_le _) (by omega)
  simpa [search_symbol] using h

theorem search_code_eq_find (book : List CodeTable) (code len : Nat) (hlen : book.length < 256) :
    search_code book code len
      = .ok (book.find? (fun t => t.code == code && t.num_bits == len)) := by
  have h := search_loop_eq_find book (fun t => t.code == code && t.num_bits == len) hlen 256 0
    (Nat.zero_le _) (by omega)
  simpa [search_code] using h

/-! ## Scans of a codebook of 256 entries or more -/

theorem search_loop_miss (book : List CodeTable) (p : CodeTable → Bool)
    (hlen : 256 ≤ book.length) (hno : ∀ t ∈ book.take 256, p t = false) :
    ∀ (fuel i : Nat), i + fuel = 256 → search_loop book p fuel i = .error .endless_loop := by
  intro fuel
  induction fuel with
  | zero => intro i _; rfl
  | succ fuel ih =>
    intro i hi
    rw [search_loop]
    have hlt : i < book.length := by omega
    have hget : book.get? i = some book[i] := by simp [List.getElem?_eq_getElem hlt]
    have hmem : book[i] ∈ book.take 256 := by
      rw [List.mem_take_iff_getElem]
      exact ⟨i, by omega, rfl⟩
    rw [hget]
    simp only [hno _ hmem, Bool.false_eq_true, if_false]
    cases fuel with
    | zero => rfl
    | succ fuel =>
      have hmod : (i + 1) % 256 = i + 1 := Nat.mod_eq_of_lt (by omega)
      rw [hmod]
      exact ih (i + 1) (by omega)

/-! ## The writers only append to the file -/

theorem write_bit_file (bit : Nat) (w : BitWriter) (fp : List Nat) :
    write_bit bit (w, fp) = ((write_bit bit (w, [])).1, fp ++ (write_bit bit (w, [])).2) := by
  simp only [write_bit]
  split_ifs <;> simp

theorem write_code_loop_file (t : CodeTable) :
    ∀ (fuel i : Nat) (w : BitWriter) (fp : List Nat),
      write_code_loop t fuel i (w, fp)
        = ((write_code_loop t fuel i (w, [])).1, fp ++ (write_code_loop t fuel i (w, [])).2) := by
  intro fuel
  induction fuel with
  | zero => intro i w fp; simp [write_code_loop]
  | succ fuel ih =>
    intro i w fp
    simp only [write_code_loop]
    rw [write_bit_file, ih]
    conv_rhs => rw [ih]
    simp [List.append_assoc]

theorem write_code_file (t : CodeTable) (w : BitWriter) (fp : List Nat) :
    write_code t (w, fp) = ((write_code t (w, [])).1, fp ++ (write_code t (w, [])).2) :=
  write_code_loop_file t _ _ w fp

theorem write_data_file (book : List CodeTable) :
    ∀ (buf : List Nat) (count : Nat) (w : BitWriter) (fp : List Nat),
      write_data book buf count (w, fp)
        = match write_data book buf 0 (w, []) with
          | .error e => .error e
          | .ok (c, st) => .ok (count + c, (st.1, fp ++ st.2)) := by
  intro buf
  induction buf with
  | nil => intro count w fp; simp [write_data]
  | cons c buf ih =>
    intro count w fp
    simp only [write_data]
    cases hs : search_symbol book c with
    | error e => rfl
    | ok r =>
      cases r with
      | none => exact ih count w fp
      | some t =>
        simp only
        rw [write_code_file, ih]
        conv_rhs => rw [ih]
        cases write_data book buf 0 ((write_code t (w, [])).1, []) with
        | error e => rfl
        | ok r => simp [Nat.add_assoc, List.append_assoc]

theorem write_tables_file :
    ∀ (book : List CodeTable) (fp : List Nat),
      write_tables book fp
        = if ∀ t ∈ book, code_size t.num_bits ≤ 4 then .ok (fp ++ book.flatMap table_bytes)
          else .error .out_of_bounds := by
  intro book
  induction book with
  | nil => intro fp; simp [write_tables]
  | cons t book ih =>
    intro fp
    simp only [write_tables]
    by_cases h : 4 < code_size t.num_bits
    · have : ¬ ∀ t' ∈ t :: book, code_size t'.num_bits ≤ 4 := by
        intro h2
        have := h2 t (List.mem_cons_self _ _)
        omega
      rw [if_pos h, if_neg this]
    · rw [if_neg h, ih]
      have h4 : code_size t.num_bits ≤ 4 := by omega
      by_cases hb : ∀ t' ∈ book, code_size t'.num_bits ≤ 4
      · have : ∀ t' ∈ t :: book, code_size t'.num_bits ≤ 4 := by
          intro t' ht'
          rcases List.mem_cons.mp ht' with rfl | ht'
          · exact h4
          · exact hb t' ht'
        rw [if_pos hb, if_pos this]
        simp [table_bytes, List.append_assoc]
      · have : ¬ ∀ t' ∈ t :: book, code_size t'.num_bits ≤ 4 := by
          intro h2
          exact hb (fun t' ht' => h2 t' (List.mem_cons_of_mem _ ht'))
        rw [if_neg hb, if_neg this]

theorem code_size_le_four {n : Nat} (h : n ≤ 32) : code_size n ≤ 4 := by
  unfold code_size
  split_ifs <;> omega

theorem write_data_returns (book : List CodeTable) (hlen : book.length < 256) :
    ∀ (buf : List Nat) (count : Nat) (st : BitWriter × List Nat),
      ∃ r, write_data book buf count st = .ok r := by
  intro buf
  induction buf with
  | nil => intro count st; exact ⟨_, rfl⟩
  | cons c buf ih =>
    intro count st
    simp only [write_data, search_symbol_eq_find book c hlen]
    cases book.find? (fun t => t.symbol == c) with
    | none => exact ih count st
    | some t => exact ih _ _

/-! ## The container writer in closed form -/

theorem compress_eq (w : BitWriter) (fp0 buf : List Nat) (book : List CodeTable) :
    compress (w, fp0) buf book
      = if ∀ t ∈ book, code_size t.num_bits ≤ 4 then
          match write_data book buf 0 (w, []) with
          | .error e => .error e
          | .ok (count, st) =>
            .ok (st.1, fp0 ++ FILE_SIGN ++ u64_bytes book.length ++ book.flatMap table_bytes
              ++ [GROUP_SEPARATOR] ++ u64_bytes buf.length ++ [GROUP_SEPARATOR] ++ st.2
              ++ [GROUP_SEPARATOR] ++ u64_bytes count)
        else .error .out_of_bounds := by
  simp only [compress, write_tables_file]
  by_cases h : ∀ t ∈ book, code_size t.num_bits ≤ 4
  · simp only [if_pos h]
    rw [write_data_file]
    cases write_data book buf 0 (w, []) with
    | error e => rfl
    | ok r => simp [List.append_assoc]
  · simp only [if_neg h]

theorem le_bytes_length (n k : Nat) : (le_bytes n k).length = k := by
  induction k generalizing n with
  | zero => rfl
  | succ k ih => simp [le_bytes, ih]

/-! ## Reading back what was written -/

theorem le_value_le_bytes (k : Nat) : ∀ n : Nat, le_value (le_bytes n k) = n % 256 ^ k := by
  induction k with
  | zero => intro n; simp [le_bytes, le_value, Nat.mod_one]
  | succ k ih =>
    intro n
    simp only [le_bytes, le_value, ih]
    rw [pow_succ, Nat.mul_comm (256 ^ k) 256, Nat.mod_mul]

theorem le_value_u64_bytes {n : Nat} (h : n < 2 ^ 64) : le_value (u64_bytes n) = n := by
  rw [u64_bytes, le_value_le_bytes]
  exact Nat.mod_eq_of_lt (by norm_num at h ⊢; exact h)

theorem le_code_size (n : Nat) : n ≤ 8 * code_size n := by
  unfold code_size
  split_ifs <;> omega

theorem code_size_eq (n : Nat) : code_size n = (n + 7) / 8 := by
  unfold code_size
  split_ifs <;> omega

theorem le_value_code_bytes {code num_bits : Nat} (h : code < 2 ^ num_bits) :
    le_value (le_bytes code (code_size num_bits)) = code := by
  rw [le_value_le_bytes]
  apply Nat.mod_eq_of_lt
  calc code < 2 ^ num_bits := h
    _ ≤ 2 ^ (8 * code_size num_bits) := Nat.pow_le_pow_right (by norm_num) (le_code_size _)
    _ = 256 ^ code_size num_bits := by rw [pow_mul]; norm_num

theorem read_tables_flatMap (rest : List Nat) :
    ∀ book : List CodeTable, (∀ t ∈ book, t.num_bits ≤ 32 ∧ t.code < 2 ^ t.num_bits) →
      read_tables book.length (book.flatMap table_bytes ++ rest) = .ok (book, rest) := by
  intro book
  induction book with
  | nil => intro _; rfl
  | cons t book ih =>
    intro h
    have ht := h t (List.mem_cons_self _ _)
    have hb := ih (fun t' ht' => h t' (List.mem_cons_of_mem _ ht'))
    have h4 : ¬ 4 < code_size t.num_bits := by
      have := code_size_le_four ht.1
      omega
    simp only [List.length_cons, List.flatMap_cons, table_bytes, read_tables, List.cons_append,
      List.nil_append, List.headD_cons, List.tail_cons, if_neg h4, List.append_assoc]
    have hlen : (le_bytes t.code (code_size t.num_bits)).length = code_size t.num_bits :=
      le_bytes_length _ _
    rw [List.take_left' hlen, List.drop_left' hlen, le_value_code_bytes ht.2]
    have hb' := hb
    simp only [table_bytes, List.cons_append, List.nil_append] at hb'
    rw [hb']

theorem read_codebook_container (book : List CodeTable) (rest : List Nat)
    (hlen : book.length < 2 ^ 64)
    (hwf : ∀ t ∈ book, t.num_bits ≤ 32 ∧ t.code < 2 ^ t.num_bits) :
    read_codebook (FILE_SIGN ++ u64_bytes book.length ++ book.flatMap table_bytes ++ rest)
      = .ok (book, rest) := by
  have h8 : FILE_SIGN.length = FILE_SIGN_LEN := rfl
  have hu : (u64_bytes book.length).length = 8 := le_bytes_length _ _
  simp only [read_codebook, List.append_assoc]
  rw [List.drop_left' h8, List.take_left' hu, List.drop_left' hu, le_value_u64_bytes hlen]
  exact read_tables_flatMap rest book hwf

/-! ## The bit count of `compress` -/

theorem search_loop_ok (book : List CodeTable) (p : CodeTable → Bool) :
    ∀ (fuel i : Nat) (r : Option CodeTable), i + fuel ≤ 256 →
      search_loop book p fuel i = .ok r → r = (book.drop i).find? p := by
  intro fuel
  induction fuel with
  | zero => intro i r _ h; simp [search_loop] at h
  | succ fuel ih =>
    intro i r hi h
    rw [search_loop] at h
    rcases Nat.lt_or_ge i book.length with hlt | hge
    · have hget : book.get? i = some book[i] := by simp [List.getElem?_eq_getElem hlt]
      have hdrop : book.drop i = book[i] :: book.drop (i + 1) := List.drop_eq_getElem_cons hlt
      rw [hget] at h
      rw [hdrop]
      generalize book[i] = t at h ⊢
      simp only [List.find?_cons]
      cases hp : p t
      · simp only [hp, Bool.false_eq_true, if_false] at h
        cases fuel with
        | zero => simp [search_loop] at h
        | succ fuel =>
          have hmod : (i + 1) % 256 = i + 1 := Nat.mod_eq_of_lt (by omega)
          rw [hmod] at h
          exact ih (i + 1) r (by omega) h
      · simp only [hp, if_true, Except.ok.injEq] at h
        exact h.symm
    · have hget : book.get? i = none := List.get?_eq_none.mpr hge
      rw [hget] at h
      simp only [Except.ok.injEq] at h
      rw [List.drop_eq_nil_of_le hge]
      exact h.symm

theorem search_symbol_ok {book : List CodeTable} {symbol : Nat} {r : Option CodeTable}
    (h : search_symbol book symbol = .ok r) : r = book.find? (fun t => t.symbol == symbol) := by
  have := search_loop_ok book (fun t => t.symbol == symbol) 256 0 r (by omega) h
  simpa using this

theorem write_data_count (book : List CodeTable) :
    ∀ (buf : List Nat) (count : Nat) (st : BitWriter × List Nat) (r : Nat × (BitWriter × List Nat)),
      write_data book buf count st = .ok r →
        r.1 = count + (buf.map (assigned_length book)).sum := by
  intro buf
  induction buf with
  | nil =>
    intro count st r h
    simp only [write_data, Except.ok.injEq] at h
    subst h
    simp
  | cons c buf ih =>
    intro count st r h
    simp only [write_data] at h
    cases hs : search_symbol book c with
    | error e => rw [hs] at h; cases h
    | ok t? =>
      rw [hs] at h
      have hfind := search_symbol_ok hs
      cases t? with
      | none =>
        simp only at h
        rw [ih count st r h]
        simp [assigned_length, ← hfind]
      | some t =>
        simp only at h
        rw [ih _ _ r h]
        simp [assigned_length, ← hfind, Nat.add_assoc]

theorem sum_map_eq_sum_dedup (f : Nat → Nat) (l : List Nat) :
    (l.map f).sum = (l.dedup.map (fun s => l.count s * f s)).sum := by
  have h : l.toFinset = l.dedup.toFinset := by
    ext x
    simp
  rw [Finset.sum_list_map_count l f, h, List.sum_toFinset _ (List.nodup_dedup l)]
  simp

/-! ## `build_tree` returns on a non-empty list -/

theorem add_node_walk_length (node : Node) :
    ∀ (rest : List Node) (head : Node), (add_node_walk node head rest).length = rest.length + 2 := by
  intro rest
  induction rest with
  | nil => intro head; rfl
  | cons nxt rest ih =>
    intro head
    simp only [add_node_walk]
    split_ifs
    · simp [ih]
    · simp

theorem add_node_length (root : List Node) (node : Node) :
    (add_node root node).length = root.length + 1 := by
  cases root with
  | nil => rfl
  | cons r rest =>
    simp only [add_node]
    split_ifs
    · simp
    · simp [add_node_walk_length]

theorem build_step_length (a b : Node) (rest : List Node) :
    (build_step a b rest).length = rest.length + 1 := by
  simp [build_step, add_node_length]

theorem build_loop_returns :
    ∀ (fuel : Nat) (l : List Node), l ≠ [] → l.length ≤ fuel + 1 → ∃ root, build_loop fuel l = some root := by
  intro fuel
  induction fuel with
  | zero =>
    intro l hl hlen
    match l, hl, hlen with
    | [x], _, _ => exact ⟨x, rfl⟩
    | _ :: _ :: _, _, h => simp at h
  | succ fuel ih =>
    intro l hl hlen
    match l, hl, hlen with
    | [x], _, _ => exact ⟨x, rfl⟩
    | a :: b :: rest, _, h =>
      simp only [build_loop]
      apply ih
      · intro h0
        have := build_step_length a b rest
        rw [h0] at this
        simp at this
      · rw [build_step_length]
        simp at h
        omega

theorem build_tree_returns (l : List Node) (hl : l ≠ []) : ∃ root, build_tree l = some root :=
  build_loop_returns l.length l hl (Nat.le_succ _)

/-! ## The codebook of a tree -/

theorem path_value_lt : ∀ p : List Nat, (∀ b ∈ p, b < 2) → path_value p < 2 ^ p.length := by
  intro p
  induction p with
  | nil => intro _; simp [path_value]
  | cons b p ih =>
    intro h
    have hb : b < 2 := h b (List.mem_cons_self _ _)
    have hp := ih (fun x hx => h x (List.mem_cons_of_mem _ hx))
    simp only [path_value, List.length_cons, pow_succ]
    have : b * 2 ^ p.length ≤ 1 * 2 ^ p.length := Nat.mul_le_mul_right _ (by omega)
    omega

theorem paths_binary : ∀ (node : Node), ∀ sp ∈ node.paths, ∀ b ∈ sp.2, b < 2 := by
  intro node
  induction node with
  | leaf s f =>
    intro sp hsp b hb
    simp only [Node.paths, List.mem_singleton] at hsp
    subst hsp
    simp at hb
  | inner f c0 c1 ih0 ih1 =>
    intro sp hsp b hb
    simp only [Node.paths, List.mem_append, List.mem_map] at hsp
    rcases hsp with ⟨sp', hsp', rfl⟩ | ⟨sp', hsp', rfl⟩
    · rcases List.mem_cons.mp hb with rfl | hb
      · omega
      · exact ih0 sp' hsp' b hb
    · rcases List.mem_cons.mp hb with rfl | hb
      · omega
      · exact ih1 sp' hsp' b hb

theorem paths_length_le : ∀ (node : Node), ∀ sp ∈ node.paths, sp.2.length ≤ node.height := by
  intro node
  induction node with
  | leaf s f =>
    intro sp hsp
    simp only [Node.paths, List.mem_singleton] at hsp
    subst hsp
    simp
  | inner f c0 c1 ih0 ih1 =>
    intro sp hsp
    simp only [Node.paths, List.mem_append, List.mem_map] at hsp
    rcases hsp with ⟨sp', hsp', rfl⟩ | ⟨sp', hsp', rfl⟩
    · have := ih0 sp' hsp'
      simp only [List.length_cons, Node.height]
      omega
    · have := ih1 sp' hsp'
      simp only [List.length_cons, Node.height]
      omega

theorem path_entry_left (code len : Nat) (sp : Nat × List Nat) :
    path_entry ((code <<< 1) % 2 ^ 32) ((len + 1) % 256) sp
      = path_entry code len (sp.1, 0 :: sp.2) := by
  have h : ((code <<< 1) % 2 ^ 32 * 2 ^ sp.2.length + path_value sp.2)
      ≡ code * 2 ^ (sp.2.length + 1) + (0 * 2 ^ sp.2.length + path_value sp.2) [MOD 2 ^ 32] := by
    have h1 : (code <<< 1) % 2 ^ 32 ≡ code * 2 [MOD 2 ^ 32] := by
      rw [Nat.shiftLeft_eq, pow_one]
      exact Nat.mod_modEq _ _
    have h2 := (h1.mul_right (2 ^ sp.2.length)).add_right (path_value sp.2)
    have e : code * 2 * 2 ^ sp.2.length + path_value sp.2
        = code * 2 ^ (sp.2.length + 1) + (0 * 2 ^ sp.2.length + path_value sp.2) := by ring
    rw [e] at h2
    exact h2
  simp only [path_entry, path_value, List.length_cons]
  congr 1
  omega

theorem path_entry_right (code len : Nat) (sp : Nat × List Nat) :
    path_entry (((code <<< 1) % 2 ^ 32 + 1) % 2 ^ 32) ((len + 1) % 256) sp
      = path_entry code len (sp.1, 1 :: sp.2) := by
  have h : (((code <<< 1) % 2 ^ 32 + 1) % 2 ^ 32 * 2 ^ sp.2.length + path_value sp.2)
      ≡ code * 2 ^ (sp.2.length + 1) + (1 * 2 ^ sp.2.length + path_value sp.2) [MOD 2 ^ 32] := by
    have h1 : ((code <<< 1) % 2 ^ 32 + 1) % 2 ^ 32 ≡ code * 2 + 1 [MOD 2 ^ 32] := by
      rw [Nat.shiftLeft_eq, pow_one]
      exact (Nat.mod_modEq _ _).trans ((Nat.mod_modEq _ _).add_right 1)
    have h2 := (h1.mul_right (2 ^ sp.2.length)).add_right (path_value sp.2)
    have e : (code * 2 + 1) * 2 ^ sp.2.length + path_value sp.2
        = code * 2 ^ (sp.2.length + 1) + (1 * 2 ^ sp.2.length + path_value sp.2) := by ring
    rw [e] at h2
    exact h2
  simp only [path_entry, path_value, List.length_cons]
  congr 1
  omega

theorem dfs_eq_paths : ∀ (node : Node) (book : List CodeTable) (code len : Nat),
    code < 2 ^ 32 → len < 256 →
    dfs book node code len = book ++ node.paths.map (path_entry code len) := by
  intro node
  induction node with
  | leaf s f =>
    intro book code len hc hl
    have hc2 : code % 4294967296 = code := Nat.mod_eq_of_lt (by norm_num at hc; exact hc)
    simp [dfs, Node.paths, path_entry, path_value, hc2, Nat.mod_eq_of_lt hl]
  | inner f c0 c1 ih0 ih1 =>
    intro book code len hc hl
    simp only [dfs]
    rw [ih0 _ _ _ (Nat.mod_lt _ (by norm_num)) (Nat.mod_lt _ (by norm_num)),
      ih1 _ _ _ (Nat.mod_lt _ (by norm_num)) (Nat.mod_lt _ (by norm_num))]
    simp only [Node.paths, List.map_append, List.map_map, List.append_assoc]
    congr 2
    · apply List.map_congr_left
      intro sp _
      exact path_entry_left code len sp
    · apply List.map_congr_left
      intro sp _
      exact path_entry_right code len sp

theorem tree2book_eq_paths (root : Node) :
    tree2book root = root.paths.map (path_entry 0 0) := by
  simpa [tree2book] using dfs_eq_paths root [] 0 0 (by norm_num) (by norm_num)

theorem tree2book_keeps_low_bits (root : Node) :
    tree2book root = root.paths.map (fun sp =>
      { symbol := sp.1, code := path_value sp.2 % 2 ^ 32, num_bits := sp.2.length % 256 }) := by
  rw [tree2book_eq_paths]
  apply List.map_congr_left
  intro sp _
  simp [path_entry]

/-! ## Codes of a tree are prefix-free -/

theorem write_bits_append (xs ys : List Nat) (st : BitWriter × List Nat) :
    write_bits (xs ++ ys) st = write_bits ys (write_bits xs st) := by
  simp [write_bits, List.foldl_append]

theorem write_code_loop_eq_bits (t : CodeTable) :
    ∀ (fuel i : Nat) (st : BitWriter × List Nat), i + fuel = t.num_bits →
      write_code_loop t fuel i st = write_bits (code_bits_from t.code fuel) st := by
  intro fuel
  induction fuel with
  | zero => intro i st _; rfl
  | succ fuel ih =>
    intro i st h
    have e : t.num_bits - i - 1 = fuel := by omega
    simp only [write_code_loop, code_bits_from, e]
    rw [ih (i + 1) _ (by omega)]
    rfl

theorem write_code_eq_bits (t : CodeTable) (st : BitWriter × List Nat) :
    write_code t st = write_bits (code_bits t) st :=
  write_code_loop_eq_bits t t.num_bits 0 st (Nat.zero_add _)

theorem code_bits_from_length (code : Nat) : ∀ k, (code_bits_from code k).length = k := by
  intro k
  induction k with
  | zero => rfl
  | succ k ih => simp [code_bits_from, ih]

theorem code_bits_length (t : CodeTable) : (code_bits t).length = t.num_bits :=
  code_bits_from_length _ _

theorem code_bits_from_binary (code : Nat) : ∀ k, ∀ b ∈ code_bits_from code k, b < 2 := by
  intro k
  induction k with
  | zero => intro b hb; simp [code_bits_from] at hb
  | succ k ih =>
    intro b hb
    simp only [code_bits_from, List.mem_cons] at hb
    rcases hb with rfl | hb
    · rw [Nat.and_one_is_mod]
      omega
    · exact ih b hb

theorem symbol_bits_binary (book : List CodeTable) (c : Nat) : ∀ b ∈ symbol_bits book c, b < 2 := by
  intro b hb
  unfold symbol_bits at hb
  cases h : book.find? (fun t => t.symbol == c) with
  | none => rw [h] at hb; simp at hb
  | some t => rw [h] at hb; exact code_bits_from_binary _ _ b hb

theorem symbol_bits_length (book : List CodeTable) (c : Nat) :
    (symbol_bits book c).length = assigned_length book c := by
  unfold symbol_bits assigned_length
  cases book.find? (fun t => t.symbol == c) with
  | none => rfl
  | some t => exact code_bits_length t

theorem write_data_eq_bits (book : List CodeTable) (hlen : book.length < 256) :
    ∀ (buf : List Nat) (count : Nat) (st : BitWriter × List Nat),
      write_data book buf count st
        = .ok (count + (buf.flatMap (symbol_bits book)).length,
            write_bits (buf.flatMap (symbol_bits book)) st) := by
  intro buf
  induction buf with
  | nil => intro count st; rfl
  | cons c buf ih =>
    intro count st
    simp only [write_data, search_symbol_eq_find book c hlen, List.flatMap_cons,
      write_bits_append, List.length_append]
    cases h : book.find? (fun t => t.symbol == c) with
    | none =>
      simp only [ih]
      simp [symbol_bits, h, write_bits]
    | some t =>
      simp only [ih, write_code_eq_bits]
      simp [symbol_bits, h, code_bits_length, Nat.add_assoc]

/-! ## Eight bits make a byte -/

theorem write_bits_file : ∀ (bits : List Nat) (w : BitWriter) (fp : List Nat),
    write_bits bits (w, fp) = ((write_bits bits (w, [])).1, fp ++ (write_bits bits (w, [])).2) := by
  intro bits
  induction bits with
  | nil => intro w fp; simp [write_bits]
  | cons b bits ih =>
    intro w fp
    have e : ∀ st, write_bits (b :: bits) st = write_bits bits (write_bit b st) := fun _ => rfl
    rw [e, e, write_bit_file, ih]
    conv_rhs => rw [ih]
    simp [List.append_assoc]

theorem write_bits_chunk_fin :
    ∀ b7 b6 b5 b4 b3 b2 b1 b0 : Fin 2,
      ∃ byte, write_bits [b7.val, b6.val, b5.val, b4.val, b3.val, b2.val, b1.val, b0.val]
          (BitWriter.fresh, []) = (BitWriter.fresh, [byte])
        ∧ byte_bits byte = [b7.val, b6.val, b5.val, b4.val, b3.val, b2.val, b1.val, b0.val] := by
  intro b7 b6 b5 b4 b3 b2 b1 b0
  refine ⟨128 * b7.val + 64 * b6.val + 32 * b5.val + 16 * b4.val + 8 * b3.val + 4 * b2.val
    + 2 * b1.val + b0.val, ?_⟩
  revert b7 b6 b5 b4 b3 b2 b1 b0
  decide

theorem write_bits_whole_bytes : ∀ (n : Nat) (bits : List Nat) (fp : List Nat),
    bits.length = 8 * n → (∀ b ∈ bits, b < 2) →
      ∃ bytes, write_bits bits (BitWriter.fresh, fp) = (BitWriter.fresh, fp ++ bytes)
        ∧ bytes.flatMap byte_bits = bits := by
  intro n
  induction n with
  | zero =>
    intro bits fp hlen _
    have : bits = [] := List.length_eq_zero.mp (by simpa using hlen)
    subst this
    exact ⟨[], by simp [write_bits], rfl⟩
  | succ n ih =>
    intro bits fp hlen hbin
    match bits, hlen, hbin with
    | b7 :: b6 :: b5 :: b4 :: b3 :: b2 :: b1 :: b0 :: rest, hlen, hbin =>
      have h7 : b7 < 2 := hbin b7 (by simp)
      have h6 : b6 < 2 := hbin b6 (by simp)
      have h5 : b5 < 2 := hbin b5 (by simp)
      have h4 : b4 < 2 := hbin b4 (by simp)
      have h3 : b3 < 2 := hbin b3 (by simp)
      have h2 : b2 < 2 := hbin b2 (by simp)
      have h1 : b1 < 2 := hbin b1 (by simp)
      have h0 : b0 < 2 := hbin b0 (by simp)
      obtain ⟨byte, hw, hb⟩ := write_bits_chunk_fin ⟨b7, h7⟩ ⟨b6, h6⟩ ⟨b5, h5⟩ ⟨b4, h4⟩
        ⟨b3, h3⟩ ⟨b2, h2⟩ ⟨b1, h1⟩ ⟨b0, h0⟩
      simp only at hw hb
      have hrest : rest.length = 8 * n := by
        simp only [List.length_cons] at hlen
        omega
      obtain ⟨bytes, hws, hbs⟩ := ih rest (fp ++ [byte]) hrest
        (fun b hb' => hbin b (by simp [hb']))
      refine ⟨byte :: bytes, ?_, ?_⟩
      · have e : b7 :: b6 :: b5 :: b4 :: b3 :: b2 :: b1 :: b0 :: rest
            = [b7, b6, b5, b4, b3, b2, b1, b0] ++ rest := rfl
        have hw' : write_bits [b7, b6, b5, b4, b3, b2, b1, b0] (BitWriter.fresh, fp)
            = (BitWriter.fresh, fp ++ [byte]) := by
          rw [write_bits_file, hw]
        rw [e, write_bits_append, hw', hws]
        simp
      · simp [hb, hbs]
    | [], hlen, _ => simp at hlen
    | [_], hlen, _ => simp at hlen; omega
    | [_, _], hlen, _ => simp at hlen; omega
    | [_, _, _], hlen, _ => simp at hlen; omega
    | [_, _, _, _], hlen, _ => simp at hlen; omega
    | [_, _, _, _, _], hlen, _ => simp at hlen; omega
    | [_, _, _, _, _, _], hlen, _ => simp at hlen; omega
    | [_, _, _, _, _, _, _], hlen, _ => simp at hlen; omega

/-! ## The reader as a run of bits -/

theorem decode_bits_append (book : List CodeTable) : ∀ (xs ys : List Nat) (st : Nat × Nat × List Nat),
    decode_bits book (xs ++ ys) st
      = match decode_bits book xs st with
        | .error e => .error e
        | .ok st => decode_bits book ys st := by
  intro xs
  induction xs with
  | nil => intro ys st; rfl
  | cons x xs ih =>
    intro ys st
    simp only [List.cons_append, decode_bits]
    cases decode_bit book x st with
    | error e => rfl
    | ok st' => exact ih ys st'

theorem decode_byte_eq_bits (book : List CodeTable) (byte : Nat) :
    ∀ (k : Nat) (st : Nat × Nat × List Nat),
      decode_byte book byte k st = decode_bits book (byte_bits_from byte k) st := by
  intro k
  induction k with
  | zero => intro st; rfl
  | succ k ih =>
    intro st
    simp only [decode_byte, byte_bits_from, decode_bits]
    cases decode_bit book ((byte &&& 1 <<< k) >>> k) st with
    | error e => rfl
    | ok st' => exact ih st'

theorem decode_data_eq_bits (book : List CodeTable) :
    ∀ (bytes : List Nat) (st : Nat × Nat × List Nat), (∀ b ∈ bytes, b ≠ GROUP_SEPARATOR) →
      ∀ rest : List Nat,
      decode_data book bytes st
          = (match decode_bits book (bytes.flatMap byte_bits) st with
            | .error e => .error e
            | .ok st => .ok (st, none))
        ∧ decode_data book (bytes ++ GROUP_SEPARATOR :: rest) st
          = (match decode_bits book (bytes.flatMap byte_bits) st with
            | .error e => .error e
            | .ok st => .ok (st, some rest)) := by
  intro bytes
  induction bytes with
  | nil =>
    intro st _ rest
    simp [decode_data, decode_bits]
  | cons b bytes ih =>
    intro st h rest
    have hb : b ≠ GROUP_SEPARATOR := h b (List.mem_cons_self _ _)
    have ih' := fun st => ih st (fun x hx => h x (List.mem_cons_of_mem _ hx)) rest
    simp only [decode_data, List.cons_append, if_neg hb, List.flatMap_cons, decode_bits_append,
      decode_byte_eq_bits, byte_bits]
    cases decode_bits book (byte_bits_from b 8) st with
    | error e => exact ⟨rfl, rfl⟩
    | ok st' => exact ih' st'

/-! ## Greedy decoding of prefix-free codes -/

theorem code_bits_from_split (c j : Nat) : ∀ m : Nat,
    code_bits_from c (m + j) = code_bits_from (c >>> j) m ++ code_bits_from c j := by
  intro m
  induction m with
  | zero => simp [code_bits_from]
  | succ m ih =>
    have e : m + 1 + j = (m + j) + 1 := by omega
    rw [e]
    simp only [code_bits_from, ih, List.cons_append]
    congr 2
    rw [← Nat.shiftRight_add, Nat.add_comm j m]

theorem accumulate_bit (c j : Nat) (hc : c < 2 ^ 32) :
    (((c >>> (j + 1)) <<< 1) % 2 ^ 32) ||| ((c >>> j) &&& 1) = c >>> j := by
  have hx : c >>> j < 2 ^ 32 := by
    rw [Nat.shiftRight_eq_div_pow]
    exact lt_of_le_of_lt (Nat.div_le_self _ _) hc
  have e1 : c >>> (j + 1) = (c >>> j) / 2 := by
    rw [Nat.shiftRight_add, Nat.shiftRight_eq_div_pow, pow_one]
  generalize c >>> j = x at hx e1
  rw [e1, Nat.shiftLeft_eq, pow_one, Nat.and_one_is_mod]
  have hlt : x / 2 * 2 < 2 ^ 32 := by omega
  rw [Nat.mod_eq_of_lt hlt]
  have h := Nat.mul_add_lt_is_or (i := 1) (b := x % 2) (by omega) (x / 2)
  rw [pow_one] at h
  rw [Nat.mul_comm, ← h]
  omega

theorem decode_bit_eq (book : List CodeTable) (hlen : book.length < 256) (bit : Nat)
    (st : Nat × Nat × List Nat) :
    decode_bit book bit st
      = match book.find? (fun t => t.code == (((st.1 <<< 1) % 2 ^ 32) ||| bit)
            && t.num_bits == (st.2.1 + 1) % 256) with
        | some table => .ok (0, 0, st.2.2 ++ [table.symbol])
        | none => .ok ((((st.1 <<< 1) % 2 ^ 32) ||| bit), (st.2.1 + 1) % 256, st.2.2) := by
  simp only [decode_bit, search_code_eq_find book _ _ hlen]
  cases book.find? (fun t => t.code == (((st.1 <<< 1) % 2 ^ 32) ||| bit)
            && t.num_bits == (st.2.1 + 1) % 256) <;> rfl

theorem decode_bits_cons (book : List CodeTable) (hlen : book.length < 256) (bit : Nat)
    (bits : List Nat) (acc cnt : Nat) (data : List Nat) :
    decode_bits book (bit :: bits) (acc, cnt, data)
      = match book.find? (fun t => t.code == (((acc <<< 1) % 2 ^ 32) ||| bit)
            && t.num_bits == (cnt + 1) % 256) with
        | some table => decode_bits book bits (0, 0, data ++ [table.symbol])
        | none => decode_bits book bits ((((acc <<< 1) % 2 ^ 32) ||| bit), (cnt + 1) % 256, data) := by
  rw [decode_bits, decode_bit_eq book hlen]
  cases book.find? (fun t => t.code == (((acc <<< 1) % 2 ^ 32) ||| bit)
            && t.num_bits == (cnt + 1) % 256) <;> rfl

theorem pairwise_eq_of_prefix {book : List CodeTable}
    (hpf : book.Pairwise (fun t u => unrelated (code_bits t) (code_bits u)))
    {t e : CodeTable} (ht : t ∈ book) (he : e ∈ book) (h : code_bits t <+: code_bits e) :
    t = e := by
  by_contra hne
  have hsymm : Symmetric (fun t u : CodeTable => unrelated (code_bits t) (code_bits u)) :=
    fun a b hab => ⟨hab.2, hab.1⟩
  exact (hpf.forall hsymm ht he hne).1 h

theorem decode_one_code (book : List CodeTable) (hlen : book.length < 256)
    (hpf : book.Pairwise (fun t u => unrelated (code_bits t) (code_bits u)))
    (e : CodeTable) (he : e ∈ book) (h32 : e.num_bits ≤ 32) (hcode : e.code < 2 ^ e.num_bits)
    (rest : List Nat) (data : List Nat) :
    ∀ k : Nat, k < e.num_bits →
      decode_bits book (code_bits_from e.code (k + 1) ++ rest)
          (e.code >>> (k + 1), e.num_bits - (k + 1), data)
        = decode_bits book rest (0, 0, data ++ [e.symbol]) := by
  have hc32 : e.code < 2 ^ 32 := lt_of_lt_of_le hcode (Nat.pow_le_pow_right (by norm_num) h32)
  intro k
  induction k with
  | zero =>
    intro hk
    have hstep : code_bits_from e.code (0 + 1) ++ rest = ((e.code >>> 0) &&& 1) :: rest := rfl
    rw [hstep, decode_bits_cons book hlen]
    have hacc := accumulate_bit e.code 0 hc32
    have hcnt : (e.num_bits - (0 + 1) + 1) % 256 = e.num_bits := by omega
    rw [hacc, hcnt, Nat.shiftRight_zero]
    cases hf : book.find? (fun t => t.code == e.code && t.num_bits == e.num_bits) with
    | none =>
      have := List.find?_eq_none.mp hf e he
      simp at this
    | some t =>
      have htmem := List.mem_of_find?_eq_some hf
      have htp := List.find?_some hf
      simp only [Bool.and_eq_true, beq_iff_eq] at htp
      have hbits : code_bits t = code_bits e := by
        simp [code_bits, htp.1, htp.2]
      have hte : t = e := pairwise_eq_of_prefix hpf htmem he (by rw [hbits])
      simp [hte]
  | succ k ih =>
    intro hk
    have hstep : code_bits_from e.code (k + 1 + 1) ++ rest
        = ((e.code >>> (k + 1)) &&& 1) :: (code_bits_from e.code (k + 1) ++ rest) := rfl
    rw [hstep, decode_bits_cons book hlen]
    have hacc := accumulate_bit e.code (k + 1) hc32
    have hcnt : (e.num_bits - (k + 1 + 1) + 1) % 256 = e.num_bits - (k + 1) := by omega
    rw [hacc, hcnt]
    cases hf : book.find? (fun t => t.code == e.code >>> (k + 1)
        && t.num_bits == e.num_bits - (k + 1)) with
    | none => exact ih (by omega)
    | some t =>
      exfalso
      have htmem := List.mem_of_find?_eq_some hf
      have htp := List.find?_some hf
      simp only [Bool.and_eq_true, beq_iff_eq] at htp
      have hsplit := code_bits_from_split e.code (k + 1) (e.num_bits - (k + 1))
      have hn : e.num_bits - (k + 1) + (k + 1) = e.num_bits := by omega
      rw [hn] at hsplit
      have hpre : code_bits t <+: code_bits e := by
        simp only [code_bits, htp.1, htp.2, hsplit]
        exact List.prefix_append _ _
      have hte : t = e := pairwise_eq_of_prefix hpf htmem he hpre
      rw [hte] at htp
      omega

theorem decode_symbols (book : List CodeTable) (hlen : book.length < 256)
    (hwf : ∀ t ∈ book, 1 ≤ t.num_bits ∧ t.num_bits ≤ 32 ∧ t.code < 2 ^ t.num_bits)
    (hpf : book.Pairwise (fun t u => unrelated (code_bits t) (code_bits u))) :
    ∀ (syms : List Nat) (data : List Nat), (∀ s ∈ syms, ∃ t ∈ book, t.symbol = s) →
      decode_bits book (syms.flatMap (symbol_bits book)) (0, 0, data) = .ok (0, 0, data ++ syms) := by
  intro syms
  induction syms with
  | nil => intro data _; simp [decode_bits]
  | cons s syms ih =>
    intro data hs
    obtain ⟨t, ht, hts⟩ := hs s (List.mem_cons_self _ _)
    cases hf : book.find? (fun t => t.symbol == s) with
    | none =>
      have := List.find?_eq_none.mp hf t ht
      simp [hts] at this
    | some e =>
      have he := List.mem_of_find?_eq_some hf
      have hes := List.find?_some hf
      simp only [beq_iff_eq] at hes
      obtain ⟨h1, h32, hcode⟩ := hwf e he
      have hk : e.num_bits - 1 + 1 = e.num_bits := by omega
      have hone := decode_one_code book hlen hpf e he h32 hcode (syms.flatMap (symbol_bits book))
        data (e.num_bits - 1) (by omega)
      rw [hk, Nat.sub_self, Nat.shiftRight_eq_div_pow, Nat.div_eq_of_lt hcode] at hone
      simp only [List.flatMap_cons]
      have hsb : symbol_bits book s = code_bits_from e.code e.num_bits := by
        simp [symbol_bits, hf, code_bits]
      rw [hsb, hone, ih (data ++ [e.symbol]) (fun x hx => hs x (List.mem_cons_of_mem _ hx)), hes]
      simp

/-! ## How many bytes the writer puts out -/

theorem write_bits_count : ∀ (bits : List Nat) (w : BitWriter) (fp : List Nat),
    1 ≤ w.bit_idx → w.bit_idx ≤ 8 →
      (write_bits bits (w, fp)).1.bit_idx = 8 - (8 - w.bit_idx + bits.length) % 8
        ∧ (write_bits bits (w, fp)).2.length = fp.length + (8 - w.bit_idx + bits.length) / 8 := by
  intro bits
  induction bits with
  | nil =>
    intro w fp h1 h8
    simp only [write_bits, List.foldl_nil, List.length_nil, Nat.add_zero]
    constructor <;> omega
  | cons b bits ih =>
    intro w fp h1 h8
    have e : write_bits (b :: bits) (w, fp) = write_bits bits (write_bit b (w, fp)) := rfl
    rw [e]
    have hidx : (w.bit_idx + 255) % 256 = w.bit_idx - 1 := by omega
    simp only [write_bit, hidx]
    by_cases h0 : w.bit_idx - 1 = 0
    · rw [if_pos h0]
      obtain ⟨i1, i2⟩ := ih { byte := 0x00, bit_idx := 8 }
        (fp ++ [(w.byte ||| b <<< (w.bit_idx - 1)) % 256]) (by decide) (by decide)
      simp only [List.length_cons, List.length_append, List.length_nil] at i1 i2 ⊢
      rw [i1, i2]
      constructor <;> omega
    · rw [if_neg h0]
      obtain ⟨i1, i2⟩ := ih (BitWriter.mk ((w.byte ||| b <<< (w.bit_idx - 1)) % 256)
        (w.bit_idx - 1)) fp (by simp only; omega) (by simp only; omega)
      simp only [List.length_cons] at i1 i2 ⊢
      rw [i1, i2]
      constructor <;> omega

theorem write_bits_fresh_length (bits : List Nat) :
    (write_bits bits (BitWriter.fresh, [])).2.length = bits.length / 8 := by
  have h := (write_bits_count bits BitWriter.fresh [] (by decide) (by decide)).2
  simpa [BitWriter.fresh] using h

/-! ## Framing checks of `decode` -/

theorem write_data_ok_bits (book : List CodeTable) :
    ∀ (buf : List Nat) (count : Nat) (st : BitWriter × List Nat) (r : Nat × (BitWriter × List Nat)),
      write_data book buf count st = .ok r →
        ∃ bits : List Nat, r = (count + bits.length, write_bits bits st) := by
  intro buf
  induction buf with
  | nil =>
    intro count st r h
    simp only [write_data, Except.ok.injEq] at h
    exact ⟨[], by rw [← h]; rfl⟩
  | cons c buf ih =>
    intro count st r h
    simp only [write_data] at h
    cases hs : search_symbol book c with
    | error e => rw [hs] at h; cases h
    | ok t? =>
      rw [hs] at h
      cases t? with
      | none => exact ih count st r h
      | some t =>
        simp only at h
        obtain ⟨bits, hbits⟩ := ih _ _ r h
        refine ⟨code_bits t ++ bits, ?_⟩
        rw [hbits, write_code_eq_bits, write_bits_append, List.length_append, code_bits_length,
          Nat.add_assoc]

theorem write_bits_idle : ∀ (bits : List Nat) (w : BitWriter) (fp : List Nat),
    1 ≤ w.bit_idx → w.bit_idx ≤ 8 → (w.bit_idx = 8 → w.byte = 0) →
      (write_bits bits (w, fp)).1.bit_idx = 8 → (write_bits bits (w, fp)).1.byte = 0 := by
  intro bits
  induction bits with
  | nil => intro w fp _ _ h0 h; exact h0 h
  | cons b bits ih =>
    intro w fp h1 h8 _ h
    have e : write_bits (b :: bits) (w, fp) = write_bits bits (write_bit b (w, fp)) := rfl
    rw [e] at h ⊢
    have hidx : (w.bit_idx + 255) % 256 = w.bit_idx - 1 := by omega
    simp only [write_bit, hidx] at h ⊢
    by_cases hz : w.bit_idx - 1 = 0
    · rw [if_pos hz] at h ⊢
      exact ih (BitWriter.mk 0 8) _ (by simp) (by simp) (fun _ => rfl) h
    · rw [if_neg hz] at h ⊢
      exact ih (BitWriter.mk ((w.byte ||| b <<< (w.bit_idx - 1)) % 256) (w.bit_idx - 1)) _
        (by simp only; omega) (by simp only; omega) (by simp only; omega) h

theorem write_bits_fresh_again (bits : List Nat) (fp : List Nat) (h : bits.length % 8 = 0) :
    (write_bits bits (BitWriter.fresh, fp)).1 = BitWriter.fresh := by
  have hidx := (write_bits_count bits BitWriter.fresh fp (by decide) (by decide)).1
  have h8 : (write_bits bits (BitWriter.fresh, fp)).1.bit_idx = 8 := by
    rw [hidx]
    simp only [BitWriter.fresh]
    omega
  have hb := write_bits_idle bits BitWriter.fresh fp (by decide) (by decide) (fun _ => rfl) h8
  cases hw : (write_bits bits (BitWriter.fresh, fp)).1 with
  | mk byte bit_idx =>
    rw [hw] at h8 hb
    simp only at h8 hb
    rw [h8, hb]
    rfl

theorem compress_leaves_fresh (buf file : List Nat) (book : List CodeTable) (w : BitWriter)
    (h : compress (BitWriter.fresh, []) buf book = .ok (w, file))
    (h8 : le_value (file.drop (file.length - 8)) % 8 = 0) : w = BitWriter.fresh := by
  rw [compress_eq] at h
  split_ifs at h
  cases hd : write_data book buf 0 (BitWriter.fresh, []) with
  | error e => rw [hd] at h; cases h
  | ok r =>
    rw [hd] at h
    obtain ⟨count, st⟩ := r
    simp only [Except.ok.injEq, Prod.mk.injEq] at h
    obtain ⟨hw, hfile⟩ := h
    obtain ⟨bits, hbits⟩ := write_data_ok_bits book buf 0 _ _ hd
    simp only [Prod.mk.injEq, Nat.zero_add] at hbits
    have hlen : (u64_bytes count).length = 8 := le_bytes_length _ _
    have hdrop : file.drop (file.length - 8) = u64_bytes count := by
      rw [← hfile, List.length_append, hlen, Nat.add_sub_cancel, List.drop_left]
    rw [hdrop, u64_bytes, le_value_le_bytes] at h8
    have hc : count % 8 = 0 := by
      have : (8 : Nat) ∣ 256 ^ 8 := by norm_num
      rw [Nat.mod_mod_of_dvd _ this] at h8
      exact h8
    rw [← hw, hbits.2]
    exact write_bits_fresh_again bits [] (by rw [← hbits.1]; exact hc)

/-! ## Packing in closed form -/

theorem write_bits_chunk_value :
    ∀ b7 b6 b5 b4 b3 b2 b1 b0 : Fin 2,
      write_bits [b7.val, b6.val, b5.val, b4.val, b3.val, b2.val, b1.val, b0.val]
          (BitWriter.fresh, [])
        = (BitWriter.fresh, [128 * b7.val + 64 * b6.val + 32 * b5.val + 16 * b4.val + 8 * b3.val
            + 4 * b2.val + 2 * b1.val + b0.val]) := by
  decide

theorem write_bits_pending_fin :
    ∀ b6 b5 b4 b3 b2 b1 b0 : Fin 2,
      write_bits [b0.val] (BitWriter.fresh, []) = (BitWriter.holding [b0.val], [])
        ∧ write_bits [b1.val, b0.val] (BitWriter.fresh, [])
            = (BitWriter.holding [b1.val, b0.val], [])
        ∧ write_bits [b2.val, b1.val, b0.val] (BitWriter.fresh, [])
            = (BitWriter.holding [b2.val, b1.val, b0.val], [])
        ∧ write_bits [b3.val, b2.val, b1.val, b0.val] (BitWriter.fresh, [])
            = (BitWriter.holding [b3.val, b2.val, b1.val, b0.val], [])
        ∧ write_bits [b4.val, b3.val, b2.val, b1.val, b0.val] (BitWriter.fresh, [])
            = (BitWriter.holding [b4.val, b3.val, b2.val, b1.val, b0.val], [])
        ∧ write_bits [b5.val, b4.val, b3.val, b2.val, b1.val, b0.val] (BitWriter.fresh, [])
            = (BitWriter.holding [b5.val, b4.val, b3.val, b2.val, b1.val, b0.val], [])
        ∧ write_bits [b6.val, b5.val, b4.val, b3.val, b2.val, b1.val, b0.val] (BitWriter.fresh, [])
            = (BitWriter.holding [b6.val, b5.val, b4.val, b3.val, b2.val, b1.val, b0.val], []) := by
  decide

theorem write_bits_short (l : List Nat) (fp : List Nat) (hlen : l.length < 8)
    (hbin : ∀ b ∈ l, b < 2) :
    write_bits l (BitWriter.fresh, fp) = (BitWriter.holding l, fp) := by
  have hfile : ∀ w, write_bits l (BitWriter.fresh, []) = (w, []) →
      write_bits l (BitWriter.fresh, fp) = (w, fp) := by
    intro w hw
    rw [write_bits_file, hw]
    simp
  apply hfile
  match l, hlen, hbin with
  | [], _, _ => rfl
  | [b0], _, hbin =>
    exact (write_bits_pending_fin 0 0 0 0 0 0 ⟨b0, hbin b0 (by simp)⟩).1
  | [b1, b0], _, hbin =>
    exact (write_bits_pending_fin 0 0 0 0 0 ⟨b1, hbin b1 (by simp)⟩ ⟨b0, hbin b0 (by simp)⟩).2.1
  | [b2, b1, b0], _, hbin =>
    exact (write_bits_pending_fin 0 0 0 0 ⟨b2, hbin b2 (by simp)⟩ ⟨b1, hbin b1 (by simp)⟩
      ⟨b0, hbin b0 (by simp)⟩).2.2.1
  | [b3, b2, b1, b0], _, hbin =>
    exact (write_bits_pending_fin 0 0 0 ⟨b3, hbin b3 (by simp)⟩ ⟨b2, hbin b2 (by simp)⟩
      ⟨b1, hbin b1 (by simp)⟩ ⟨b0, hbin b0 (by simp)⟩).2.2.2.1
  | [b4, b3, b2, b1, b0], _, hbin =>
    exact (write_bits_pending_fin 0 0 ⟨b4, hbin b4 (by simp)⟩ ⟨b3, hbin b3 (by simp)⟩
      ⟨b2, hbin b2 (by simp)⟩ ⟨b1, hbin b1 (by simp)⟩ ⟨b0, hbin b0 (by simp)⟩).2.2.2.2.1
  | [b5, b4, b3, b2, b1, b0], _, hbin =>
    exact (write_bits_pending_fin 0 ⟨b5, hbin b5 (by simp)⟩ ⟨b4, hbin b4 (by simp)⟩
      ⟨b3, hbin b3 (by simp)⟩ ⟨b2, hbin b2 (by simp)⟩ ⟨b1, hbin b1 (by simp)⟩
      ⟨b0, hbin b0 (by simp)⟩).2.2.2.2.2.1
  | [b6, b5, b4, b3, b2, b1, b0], _, hbin =>
    exact (write_bits_pending_fin ⟨b6, hbin b6 (by simp)⟩ ⟨b5, hbin b5 (by simp)⟩
      ⟨b4, hbin b4 (by simp)⟩ ⟨b3, hbin b3 (by simp)⟩ ⟨b2, hbin b2 (by simp)⟩
      ⟨b1, hbin b1 (by simp)⟩ ⟨b0, hbin b0 (by simp)⟩).2.2.2.2.2.2
  | _ :: _ :: _ :: _ :: _ :: _ :: _ :: _ :: _, hlen, _ =>
    simp only [List.length_cons] at hlen
    omega

theorem pack_bits_short (l : List Nat) (hlen : l.length < 8) :
    pack_bits l = [] ∧ pending_bits l = l := by
  match l, hlen with
  | [], _ => exact ⟨rfl, rfl⟩
  | [_], _ => exact ⟨rfl, rfl⟩
  | [_, _], _ => exact ⟨rfl, rfl⟩
  | [_, _, _], _ => exact ⟨rfl, rfl⟩
  | [_, _, _, _], _ => exact ⟨rfl, rfl⟩
  | [_, _, _, _, _], _ => exact ⟨rfl, rfl⟩
  | [_, _, _, _, _, _], _ => exact ⟨rfl, rfl⟩
  | [_, _, _, _, _, _, _], _ => exact ⟨rfl, rfl⟩
  | _ :: _ :: _ :: _ :: _ :: _ :: _ :: _ :: _, hlen =>
    simp only [List.length_cons] at hlen
    omega

theorem write_bits_pack : ∀ (n : Nat) (bits : List Nat) (fp : List Nat),
    bits.length ≤ n → (∀ b ∈ bits, b < 2) →
      write_bits bits (BitWriter.fresh, fp)
          = (BitWriter.holding (pending_bits bits), fp ++ pack_bits bits)
        ∧ (pack_bits bits).length = bits.length / 8
        ∧ (pending_bits bits).length = bits.length % 8 := by
  intro n
  induction n with
  | zero =>
    intro bits fp hlen _
    have : bits = [] := List.length_eq_zero.mp (by omega)
    subst this
    exact ⟨by simp [write_bits, pack_bits, pending_bits, BitWriter.holding, BitWriter.fresh,
      path_value], rfl, rfl⟩
  | succ n ih =>
    intro bits fp hlen hbin
    by_cases hshort : bits.length < 8
    · obtain ⟨hp, hq⟩ := pack_bits_short bits hshort
      rw [hp, hq, write_bits_short bits fp hshort hbin]
      refine ⟨by simp, ?_, ?_⟩
      · simp only [List.length_nil]
        omega
      · omega
    · match bits, hlen, hbin, hshort with
      | b7 :: b6 :: b5 :: b4 :: b3 :: b2 :: b1 :: b0 :: rest, hlen, hbin, _ =>
        have hw := write_bits_chunk_value ⟨b7, hbin b7 (by simp)⟩ ⟨b6, hbin b6 (by simp)⟩
          ⟨b5, hbin b5 (by simp)⟩ ⟨b4, hbin b4 (by simp)⟩ ⟨b3, hbin b3 (by simp)⟩
          ⟨b2, hbin b2 (by simp)⟩ ⟨b1, hbin b1 (by simp)⟩ ⟨b0, hbin b0 (by simp)⟩
        simp only at hw
        have hrest : rest.length ≤ n := by
          simp only [List.length_cons] at hlen
          omega
        obtain ⟨i1, i2, i3⟩ := ih rest
          (fp ++ [128 * b7 + 64 * b6 + 32 * b5 + 16 * b4 + 8 * b3 + 4 * b2 + 2 * b1 + b0]) hrest
          (fun b hb => hbin b (by simp [hb]))
        have e : b7 :: b6 :: b5 :: b4 :: b3 :: b2 :: b1 :: b0 :: rest
            = [b7, b6, b5, b4, b3, b2, b1, b0] ++ rest := rfl
        have hw' : write_bits [b7, b6, b5, b4, b3, b2, b1, b0] (BitWriter.fresh, fp)
            = (BitWriter.fresh, fp ++ [128 * b7 + 64 * b6 + 32 * b5 + 16 * b4 + 8 * b3 + 4 * b2
                + 2 * b1 + b0]) := by
          rw [write_bits_file, hw]
        have hpk : pack_bits (b7 :: b6 :: b5 :: b4 :: b3 :: b2 :: b1 :: b0 :: rest)
            = (128 * b7 + 64 * b6 + 32 * b5 + 16 * b4 + 8 * b3 + 4 * b2 + 2 * b1 + b0)
                :: pack_bits rest := rfl
        have hpd : pending_bits (b7 :: b6 :: b5 :: b4 :: b3 :: b2 :: b1 :: b0 :: rest)
            = pending_bits rest := rfl
        rw [hpk, hpd]
        refine ⟨?_, ?_, ?_⟩
        · rw [e, write_bits_append, hw', i1]
          simp
        · simp only [List.length_cons, i2]
          omega
        · simp only [List.length_cons, i3]
          omega
      | [], _, _, hshort => simp at hshort
      | [_], _, _, hshort => simp at hshort
      | [_, _], _, _, hshort => simp at hshort
      | [_, _, _], _, _, hshort => simp at hshort
      | [_, _, _, _], _, _, hshort => simp at hshort
      | [_, _, _, _, _], _, _, hshort => simp at hshort
      | [_, _, _, _, _, _], _, _, hshort => simp at hshort
      | [_, _, _, _, _, _, _], _, _, hshort => simp at hshort

theorem write_codes_eq_bits : ∀ (ts : List CodeTable) (st : BitWriter × List Nat),
    ts.foldl (fun st t => write_code t st) st = write_bits (ts.flatMap code_bits) st := by
  intro ts
  induction ts with
  | nil => intro st; rfl
  | cons t ts ih =>
    intro st
    rw [List.foldl_cons, ih, write_code_eq_bits, List.flatMap_cons, write_bits_append]

theorem code_bits_total : ∀ (ts : List CodeTable),
    (ts.flatMap code_bits).length = (ts.map CodeTable.num_bits).sum := by
  intro ts
  induction ts with
  | nil => rfl
  | cons t ts ih =>
    rw [List.flatMap_cons, List.length_append, ih, code_bits_length, List.map_cons, List.sum_cons]

/-! ## The node list stays sorted -/

theorem freqs_inner (f : Nat) (a b : Node) : (Node.inner f a b).freqs = f := rfl

theorem add_node_walk_cons (node : Node) : ∀ (rest : List Node) (head : Node),
    add_node_walk node head rest = head :: (add_node_walk node head rest).tail := by
  intro rest
  cases rest with
  | nil => intro head; rfl
  | cons nxt rest =>
    intro head
    simp only [add_node_walk]
    split_ifs <;> rfl

theorem add_node_walk_perm (node : Node) : ∀ (rest : List Node) (head : Node),
    (add_node_walk node head rest).Perm (node :: head :: rest) := by
  intro rest
  induction rest with
  | nil => intro head; exact List.Perm.swap _ _ _
  | cons nxt rest ih =>
    intro head
    simp only [add_node_walk]
    split_ifs
    · exact ((ih nxt).cons head).trans (List.Perm.swap _ _ _)
    · exact List.Perm.swap _ _ _

theorem add_node_walk_sorted (node : Node) : ∀ (rest : List Node) (head : Node),
    head.freqs < node.freqs → sorted_freqs (head :: rest) →
      sorted_freqs (add_node_walk node head rest) := by
  intro rest
  induction rest with
  | nil =>
    intro head hlt _
    simp [add_node_walk, sorted_freqs]
    omega
  | cons nxt rest ih =>
    intro head hlt hs
    simp only [add_node_walk]
    have hs' : sorted_freqs (nxt :: rest) := (List.pairwise_cons.mp hs).2
    have hh := (List.pairwise_cons.mp hs).1
    split_ifs with h
    · have hrec := ih nxt h hs'
      refine List.pairwise_cons.mpr ⟨?_, hrec⟩
      intro x hx
      have hx' := (add_node_walk_perm node rest nxt).subset hx
      rcases List.mem_cons.mp hx' with rfl | hx''
      · omega
      · exact hh x hx''
    · refine List.pairwise_cons.mpr ⟨?_, List.pairwise_cons.mpr ⟨?_, hs'⟩⟩
      · intro x hx
        rcases List.mem_cons.mp hx with rfl | hx'
        · omega
        · exact hh x hx'
      · intro x hx
        have hn : node.freqs ≤ nxt.freqs := by omega
        rcases List.mem_cons.mp hx with rfl | hx'
        · exact hn
        · exact le_trans hn ((List.pairwise_cons.mp hs').1 x hx')

theorem add_node_perm (root : List Node) (node : Node) :
    (add_node root node).Perm (node :: root) := by
  cases root with
  | nil => exact List.Perm.refl _
  | cons r rest =>
    simp only [add_node]
    split_ifs
    · exact List.Perm.refl _
    · exact add_node_walk_perm node rest r

theorem add_node_sorted (root : List Node) (node : Node) (hs : sorted_freqs root) :
    sorted_freqs (add_node root node) := by
  cases root with
  | nil => simp [add_node, sorted_freqs]
  | cons r rest =>
    simp only [add_node]
    split_ifs with h
    · refine List.pairwise_cons.mpr ⟨?_, hs⟩
      intro x hx
      rcases List.mem_cons.mp hx with rfl | hx'
      · exact h
      · exact le_trans h ((List.pairwise_cons.mp hs).1 x hx')
    · exact add_node_walk_sorted node rest r (by omega) hs

theorem build_step_perm (a b : Node) (rest : List Node) (hb : 1 ≤ b.freqs) :
    (build_step a b rest).Perm (Node.inner (a.freqs + b.freqs) a b :: rest) := by
  have hlt : ¬ (Node.inner (a.freqs + b.freqs) a b).freqs ≤ a.freqs := by
    rw [freqs_inner]
    omega
  simp only [build_step, add_node, if_neg hlt]
  have hp := add_node_walk_perm (Node.inner (a.freqs + b.freqs) a b) rest a
  rw [add_node_walk_cons] at hp
  exact (hp.trans (List.Perm.swap _ _ _)).cons_inv

theorem build_step_sorted (a b : Node) (rest : List Node) (hb : 1 ≤ b.freqs)
    (hs : sorted_freqs (a :: b :: rest)) : sorted_freqs (build_step a b rest) := by
  have hlt : ¬ (Node.inner (a.freqs + b.freqs) a b).freqs ≤ a.freqs := by
    rw [freqs_inner]
    omega
  simp only [build_step, add_node, if_neg hlt]
  have hs' : sorted_freqs (a :: rest) := by
    have h1 := List.pairwise_cons.mp hs
    have h2 := List.pairwise_cons.mp h1.2
    exact List.pairwise_cons.mpr ⟨fun x hx => h1.1 x (List.mem_cons_of_mem _ hx), h2.2⟩
  have hw := add_node_walk_sorted (Node.inner (a.freqs + b.freqs) a b) rest a
    (by rw [freqs_inner]; omega) hs'
  rw [add_node_walk_cons] at hw
  exact (List.pairwise_cons.mp hw).2

theorem leaf_list_perm_sorted : ∀ (leaves : List (Nat × Nat)) (root : List Node),
    sorted_freqs root →
      sorted_freqs (leaves.foldl (fun root sf => add_node root (Node.leaf sf.1 sf.2)) root)
        ∧ (leaves.foldl (fun root sf => add_node root (Node.leaf sf.1 sf.2)) root).Perm
            (leaves.reverse.map (fun sf => Node.leaf sf.1 sf.2) ++ root) := by
  intro leaves
  induction leaves with
  | nil => intro root hs; exact ⟨hs, by simp⟩
  | cons sf leaves ih =>
    intro root hs
    obtain ⟨h1, h2⟩ := ih (add_node root (Node.leaf sf.1 sf.2)) (add_node_sorted _ _ hs)
    refine ⟨h1, h2.trans ?_⟩
    simp only [List.reverse_cons, List.map_append, List.map_cons, List.map_nil, List.append_assoc,
      List.singleton_append]
    exact List.Perm.append_left _ (add_node_perm _ _)

/-! ## Where `add_node` links a node in -/

theorem add_node_walk_split (node : Node) : ∀ (rest : List Node) (head : Node),
    add_node_walk node head rest
      = head :: (rest.takeWhile (fun x => decide (x.freqs < node.freqs))
          ++ node :: rest.dropWhile (fun x => decide (x.freqs < node.freqs))) := by
  intro rest
  induction rest with
  | nil => intro head; rfl
  | cons nxt rest ih =>
    intro head
    simp only [add_node_walk]
    by_cases h : nxt.freqs < node.freqs
    · rw [if_pos h, ih nxt]
      simp [List.takeWhile_cons, List.dropWhile_cons, h]
    · rw [if_neg h]
      simp [List.takeWhile_cons, List.dropWhile_cons, h]

theorem add_node_split (root : List Node) (node : Node) :
    add_node root node
      = root.takeWhile (fun x => decide (x.freqs < node.freqs))
          ++ node :: root.dropWhile (fun x => decide (x.freqs < node.freqs)) := by
  cases root with
  | nil => rfl
  | cons r rest =>
    simp only [add_node]
    by_cases h : node.freqs ≤ r.freqs
    · have h2 : ¬ r.freqs < node.freqs := by omega
      rw [if_pos h]
      simp [List.takeWhile_cons, List.dropWhile_cons, h2]
    · have h2 : r.freqs < node.freqs := by omega
      rw [if_neg h, add_node_walk_split]
      simp [List.takeWhile_cons, List.dropWhile_cons, h2]

theorem dropWhile_sorted_ge (f : Nat) : ∀ (l : List Node), sorted_freqs l →
    ∀ x ∈ l.dropWhile (fun x => decide (x.freqs < f)), f ≤ x.freqs := by
  intro l
  induction l with
  | nil => intro _ x hx; simp at hx
  | cons a l ih =>
    intro hs x hx
    have hs' : sorted_freqs l := (List.pairwise_cons.mp hs).2
    by_cases h : a.freqs < f
    · rw [List.dropWhile_cons_of_pos (by simpa using h)] at hx
      exact ih hs' x hx
    · rw [List.dropWhile_cons_of_neg (by simpa using h)] at hx
      rcases List.mem_cons.mp hx with rfl | hx'
      · omega
      · have := (List.pairwise_cons.mp hs).1 x hx'
        omega

/-! ## The order in which `build_tree` takes the nodes -/

theorem rest_sublist_build_step (a b : Node) (rest : List Node) :
    rest.Sublist (build_step a b rest) := by
  unfold build_step
  rw [add_node_split]
  by_cases h : a.freqs < (Node.inner (a.freqs + b.freqs) a b).freqs
  · rw [List.takeWhile_cons_of_pos (by simpa using h), List.dropWhile_cons_of_pos (by simpa using h)]
    simp only [List.cons_append, List.tail_cons]
    conv_lhs => rw [← List.takeWhile_append_dropWhile
      (fun x => decide (x.freqs < (Node.inner (a.freqs + b.freqs) a b).freqs)) rest]
    exact List.Sublist.append (List.Sublist.refl _) (List.sublist_cons_self _ _)
  · rw [List.takeWhile_cons_of_neg (by simpa using h), List.dropWhile_cons_of_neg (by simpa using h)]
    simp only [List.nil_append, List.tail_cons]
    exact List.sublist_cons_self _ _

theorem sublist_take_order : ∀ (fuel : Nat) (l : List Node), l.length ≤ fuel + 1 →
    l.Sublist (take_order fuel l) := by
  intro fuel
  induction fuel with
  | zero =>
    intro l hl
    match l, hl with
    | [], _ => exact List.Sublist.refl _
    | [x], _ => exact List.Sublist.refl _
    | _ :: _ :: _, hl => simp at hl
  | succ fuel ih =>
    intro l hl
    match l, hl with
    | [], _ => exact List.Sublist.refl _
    | [x], _ => exact List.Sublist.refl _
    | a :: b :: rest, hl =>
      have hlen : (build_step a b rest).length ≤ fuel + 1 := by
        rw [build_step_length]
        simp only [List.length_cons] at hl
        omega
      have h := (rest_sublist_build_step a b rest).trans (ih _ hlen)
      exact (h.cons₂ b).cons₂ a

/-! ## Weighted path length -/

theorem wpl_leaf (s f : Nat) : (Node.leaf s f).wpl = 0 := by
  simp [Node.wpl, Node.leaf_paths]

theorem weight_leaf (s f : Nat) : (Node.leaf s f).weight = f := by
  simp [Node.weight, Node.leaf_paths]

theorem weight_inner (f : Nat) (a b : Node) :
    (Node.inner f a b).weight = a.weight + b.weight := by
  simp [Node.weight, Node.leaf_paths, List.map_map, Function.comp_def]

theorem sum_map_mul_succ {α : Type} (l : List α) (w d : α → Nat) :
    (l.map (fun x => w x * (d x + 1))).sum = (l.map (fun x => w x * d x)).sum + (l.map w).sum := by
  induction l with
  | nil => rfl
  | cons x l ih =>
    simp only [List.map_cons, List.sum_cons, ih]
    ring

theorem wpl_inner (f : Nat) (a b : Node) :
    (Node.inner f a b).wpl = a.wpl + b.wpl + (a.weight + b.weight) := by
  simp only [Node.wpl, Node.weight, Node.leaf_paths, List.map_append, List.map_map,
    Function.comp_def, List.sum_append, List.length_cons]
  rw [sum_map_mul_succ a.leaf_paths (fun x => x.1.2) (fun x => x.2.length),
    sum_map_mul_succ b.leaf_paths (fun x => x.1.2) (fun x => x.2.length)]
  ring

theorem freqs_eq_weight : ∀ t : Node, t.consistent → t.freqs = t.weight := by
  intro t
  induction t with
  | leaf s f => intro _; rw [weight_leaf]; rfl
  | inner f a b iha ihb =>
    intro h
    obtain ⟨hf, ha, hb⟩ := h
    rw [weight_inner, ← iha ha, ← ihb hb, hf]
    rfl

theorem leaves_inner (f : Nat) (a b : Node) :
    (Node.inner f a b).leaves = a.leaves ++ b.leaves := by
  simp [Node.leaves, Node.leaf_paths, List.map_map, Function.comp_def]

/-! ## Two deepest sibling leaves -/

theorem depths_leaf (s f : Nat) : (Node.leaf s f).depths = {0} := by
  simp [Node.depths, Node.leaf_paths]

theorem depths_inner (f : Nat) (a b : Node) :
    (Node.inner f a b).depths = a.depths.map (· + 1) + b.depths.map (· + 1) := by
  simp [Node.depths, Node.leaf_paths, List.map_map, Function.comp_def, ← Multiset.coe_add]

theorem deepest_siblings : ∀ (t : Node), t.is_leaf = false →
    ∃ (D : Nat) (M0 : Multiset Nat) (t' : Node), 1 ≤ D ∧ t.depths = D ::ₘ D ::ₘ M0
      ∧ (∀ d ∈ t.depths, d ≤ D) ∧ t'.depths = (D - 1) ::ₘ M0 := by
  intro t
  induction t with
  | leaf s f => intro h; simp [Node.is_leaf] at h
  | inner f a b iha ihb =>
    intro _
    -- replace the deepest pair inside `a`
    have left : ∀ (D : Nat) (M0 : Multiset Nat) (a' : Node), 1 ≤ D → a.depths = D ::ₘ D ::ₘ M0 →
        (∀ d ∈ a.depths, d ≤ D) → a'.depths = (D - 1) ::ₘ M0 → (∀ d ∈ b.depths, d ≤ D) →
        ∃ (D : Nat) (M0 : Multiset Nat) (t' : Node), 1 ≤ D
          ∧ (Node.inner f a b).depths = D ::ₘ D ::ₘ M0
          ∧ (∀ d ∈ (Node.inner f a b).depths, d ≤ D) ∧ t'.depths = (D - 1) ::ₘ M0 := by
      intro D M0 a' hD ha hamax ha' hbmax
      refine ⟨D + 1, M0.map (· + 1) + b.depths.map (· + 1), Node.inner f a' b, by omega, ?_, ?_, ?_⟩
      · rw [depths_inner, ha]
        simp
      · intro d hd
        rw [depths_inner, Multiset.mem_add, Multiset.mem_map, Multiset.mem_map] at hd
        rcases hd with ⟨x, hx, rfl⟩ | ⟨x, hx, rfl⟩
        · have := hamax x hx
          omega
        · have := hbmax x hx
          omega
      · rw [depths_inner, ha']
        have e : D - 1 + 1 = D + 1 - 1 := by omega
        simp [e]
    have right : ∀ (D : Nat) (M0 : Multiset Nat) (b' : Node), 1 ≤ D → b.depths = D ::ₘ D ::ₘ M0 →
        (∀ d ∈ b.depths, d ≤ D) → b'.depths = (D - 1) ::ₘ M0 → (∀ d ∈ a.depths, d ≤ D) →
        ∃ (D : Nat) (M0 : Multiset Nat) (t' : Node), 1 ≤ D
          ∧ (Node.inner f a b).depths = D ::ₘ D ::ₘ M0
          ∧ (∀ d ∈ (Node.inner f a b).depths, d ≤ D) ∧ t'.depths = (D - 1) ::ₘ M0 := by
      intro D M0 b' hD hb hbmax hb' hamax
      refine ⟨D + 1, a.depths.map (· + 1) + M0.map (· + 1), Node.inner f a b', by omega, ?_, ?_, ?_⟩
      · rw [depths_inner, hb]
        simp only [Multiset.map_cons, Multiset.add_cons]
      · intro d hd
        rw [depths_inner, Multiset.mem_add, Multiset.mem_map, Multiset.mem_map] at hd
        rcases hd with ⟨x, hx, rfl⟩ | ⟨x, hx, rfl⟩
        · have := hamax x hx
          omega
        · have := hbmax x hx
          omega
      · rw [depths_inner, hb']
        have e : D - 1 + 1 = D + 1 - 1 := by omega
        simp only [Multiset.map_cons, Multiset.add_cons, e]
    cases a with
    | leaf sa fa =>
      cases b with
      | leaf sb fb =>
        refine ⟨1, 0, Node.leaf sa fa, le_refl _, ?_, ?_, ?_⟩
        · rw [depths_inner, depths_leaf, depths_leaf]
          rfl
        · intro d hd
          rw [depths_inner, depths_leaf, depths_leaf] at hd
          simp at hd
          omega
        · rw [depths_leaf]
          rfl
      | inner fb b0 b1 =>
        obtain ⟨D, M0, b', hD, hb, hbmax, hb'⟩ := ihb rfl
        refine right D M0 b' hD hb hbmax hb' ?_
        intro d hd
        rw [depths_leaf] at hd
        simp at hd
        omega
    | inner fa a0 a1 =>
      obtain ⟨Da, Ma, a', hDa, ha, hamax, ha'⟩ := iha rfl
      cases b with
      | leaf sb fb =>
        refine left Da Ma a' hDa ha hamax ha' ?_
        intro d hd
        rw [depths_leaf] at hd
        simp at hd
        omega
      | inner fb b0 b1 =>
        obtain ⟨Db, Mb, b', hDb, hb, hbmax, hb'⟩ := ihb rfl
        rcases Nat.le_total Db Da with h | h
        · exact left Da Ma a' hDa ha hamax ha' (fun d hd => le_trans (hbmax d hd) h)
        · exact right Db Mb b' hDb hb hbmax hb' (fun d hd => le_trans (hamax d hd) h)

/-! ## Exchange argument -/

theorem pair_cost_cons (x : Nat × Nat) (P : Multiset (Nat × Nat)) :
    pair_cost (x ::ₘ P) = x.1 * x.2 + pair_cost P := by
  simp [pair_cost]

theorem lightest_to_deepest (P : Multiset (Nat × Nat)) (a D : Nat)
    (ha : a ∈ P.map Prod.fst) (hmin : ∀ w ∈ P.map Prod.fst, a ≤ w)
    (hD : D ∈ P.map Prod.snd) (hmax : ∀ d ∈ P.map Prod.snd, d ≤ D) :
    ∃ Q : Multiset (Nat × Nat), Q.map Prod.fst = (P.map Prod.fst).erase a
      ∧ Q.map Prod.snd = (P.map Prod.snd).erase D
      ∧ a * D + pair_cost Q ≤ pair_cost P := by
  obtain ⟨⟨x, D'⟩, hxD, hD'⟩ := Multiset.mem_map.mp hD
  simp only at hD'
  subst hD'
  obtain ⟨P1, rfl⟩ := Multiset.exists_cons_of_mem hxD
  by_cases hxa : x = a
  · subst hxa
    refine ⟨P1, ?_, ?_, ?_⟩
    · simp
    · simp
    · rw [pair_cost_cons]
  · have ha1 : a ∈ P1.map Prod.fst := by
      simp only [Multiset.map_cons, Multiset.mem_cons] at ha
      rcases ha with h | h
      · exact absurd h.symm hxa
      · exact h
    obtain ⟨⟨a', d1⟩, had1, ha'⟩ := Multiset.mem_map.mp ha1
    simp only at ha'
    subst ha'
    obtain ⟨P2, rfl⟩ := Multiset.exists_cons_of_mem had1
    have hax : a' ≤ x := hmin x (by simp)
    have hd1 : d1 ≤ D' := hmax d1 (by simp)
    refine ⟨(x, d1) ::ₘ P2, ?_, ?_, ?_⟩
    · simp only [Multiset.map_cons]
      rw [Multiset.erase_cons_tail _ (by exact hxa), Multiset.erase_cons_head]
    · simp only [Multiset.map_cons]
      rw [Multiset.erase_cons_head]
    · simp only [pair_cost_cons]
      obtain ⟨u, rfl⟩ := Nat.exists_eq_add_of_le hax
      obtain ⟨v, rfl⟩ := Nat.exists_eq_add_of_le hd1
      nlinarith [Nat.zero_le (u * v)]

theorem merge_deepest (P : Multiset (Nat × Nat)) (a b D : Nat) (R M0 : Multiset Nat)
    (hfst : P.map Prod.fst = a ::ₘ b ::ₘ R) (hsnd : P.map Prod.snd = D ::ₘ D ::ₘ M0)
    (hab : a ≤ b) (hbR : ∀ w ∈ R, b ≤ w) (hmax : ∀ d ∈ P.map Prod.snd, d ≤ D) (hD : 1 ≤ D) :
    ∃ P' : Multiset (Nat × Nat), P'.map Prod.fst = (a + b) ::ₘ R
      ∧ P'.map Prod.snd = (D - 1) ::ₘ M0
      ∧ pair_cost P' + (a + b) ≤ pair_cost P := by
  obtain ⟨Q1, hQ1f, hQ1s, hQ1c⟩ := lightest_to_deepest P a D (by rw [hfst]; simp)
    (by
      intro w hw
      rw [hfst] at hw
      simp only [Multiset.mem_cons] at hw
      rcases hw with rfl | rfl | hw
      · exact le_refl _
      · exact hab
      · exact le_trans hab (hbR w hw))
    (by rw [hsnd]; simp) hmax
  rw [hfst, Multiset.erase_cons_head] at hQ1f
  rw [hsnd, Multiset.erase_cons_head] at hQ1s
  obtain ⟨Q2, hQ2f, hQ2s, hQ2c⟩ := lightest_to_deepest Q1 b D (by rw [hQ1f]; simp)
    (by
      intro w hw
      rw [hQ1f] at hw
      simp only [Multiset.mem_cons] at hw
      rcases hw with rfl | hw
      · exact le_refl _
      · exact hbR w hw)
    (by rw [hQ1s]; simp)
    (by
      intro d hd
      apply hmax
      rw [hsnd]
      rw [hQ1s] at hd
      exact Multiset.mem_cons_of_mem hd)
  rw [hQ1f, Multiset.erase_cons_head] at hQ2f
  rw [hQ1s, Multiset.erase_cons_head] at hQ2s
  refine ⟨(a + b, D - 1) ::ₘ Q2, by simp [hQ2f], by simp [hQ2s], ?_⟩
  rw [pair_cost_cons]
  obtain ⟨D', rfl⟩ := Nat.exists_eq_add_of_le hD
  simp only [Nat.add_sub_cancel_left]
  nlinarith

/-! ## The leaf list of `init_tree_from_buf` -/

theorem add_leaves_sorted : ∀ (symbols occurs : List Nat) (root : List Node),
    sorted_freqs root → sorted_freqs (add_leaves symbols occurs root) := by
  intro symbols
  induction symbols with
  | nil => intro occurs root hs; simpa [add_leaves] using hs
  | cons s symbols ih =>
    intro occurs root hs
    cases occurs with
    | nil => simpa [add_leaves] using hs
    | cons o occurs =>
      simp only [add_leaves]
      exact ih occurs _ (add_node_sorted root _ hs)

/-! ## `build_tree` is Huffman's algorithm -/

theorem build_loop_optimal : ∀ (fuel : Nat) (l : List Node), l ≠ [] → l.length ≤ fuel + 1 →
    sorted_freqs l → (∀ n ∈ l, n.consistent ∧ 1 ≤ n.freqs) →
    ∃ root, build_loop fuel l = some root ∧ root.consistent
      ∧ root.leaves.Perm (l.flatMap Node.leaves)
      ∧ ∀ P : Multiset (Nat × Nat),
          P.map Prod.fst = ((l.map Node.freqs : List Nat) : Multiset Nat) →
          is_shape (P.map Prod.snd) → root.wpl ≤ (l.map Node.wpl).sum + pair_cost P := by
  intro fuel
  induction fuel with
  | zero =>
    intro l hl hlen _ hinv
    match l, hl, hlen with
    | [x], _, _ =>
      refine ⟨x, rfl, (hinv x (by simp)).1, by simp, fun P _ _ => ?_⟩
      simp
    | _ :: _ :: _, _, h => simp at h
  | succ fuel ih =>
    intro l hl hlen hs hinv
    match l, hl, hlen, hs, hinv with
    | [x], _, _, _, hinv =>
      refine ⟨x, rfl, (hinv x (by simp)).1, by simp, fun P _ _ => ?_⟩
      simp
    | a :: b :: rest, _, hlen, hs, hinv =>
      have ha := hinv a (by simp)
      have hb := hinv b (by simp)
      have hperm := build_step_perm a b rest hb.2
      have hsorted := build_step_sorted a b rest hb.2 hs
      have hne : build_step a b rest ≠ [] := by
        intro h0
        have := build_step_length a b rest
        rw [h0] at this
        simp at this
      have hlen' : (build_step a b rest).length ≤ fuel + 1 := by
        rw [build_step_length]
        simp only [List.length_cons] at hlen
        omega
      have hinv' : ∀ n ∈ build_step a b rest, n.consistent ∧ 1 ≤ n.freqs := by
        intro n hn
        rcases List.mem_cons.mp (hperm.subset hn) with rfl | hn'
        · exact ⟨⟨rfl, ha.1, hb.1⟩, by rw [freqs_inner]; omega⟩
        · exact hinv n (by simp [hn'])
      obtain ⟨root, hroot, hcons, hleaves, hopt⟩ := ih (build_step a b rest) hne hlen' hsorted hinv'
      refine ⟨root, by simpa [build_loop] using hroot, hcons, ?_, ?_⟩
      · refine hleaves.trans ((hperm.flatMap_right Node.leaves).trans ?_)
        simp [leaves_inner]
      · intro P hfst hshape
        obtain ⟨t, ht⟩ := hshape
        have hcard : Multiset.card t.depths = rest.length + 2 := by
          rw [ht, Multiset.card_map, ← Multiset.card_map Prod.fst, hfst]
          simp
        have hnotleaf : t.is_leaf = false := by
          cases t with
          | leaf s f => rw [depths_leaf] at hcard; simp at hcard
          | inner f c0 c1 => rfl
        obtain ⟨D, M0, t', hD, hdep, hmax, ht'⟩ := deepest_siblings t hnotleaf
        have hs1 := List.pairwise_cons.mp hs
        have hs2 := List.pairwise_cons.mp hs1.2
        obtain ⟨P', hP'f, hP's, hP'c⟩ := merge_deepest P a.freqs b.freqs D
          ((rest.map Node.freqs : List Nat) : Multiset Nat) M0
          (by rw [hfst]; rfl) (by rw [← ht, hdep]) (hs1.1 b (by simp))
          (by
            intro w hw
            obtain ⟨n, hn, rfl⟩ := List.mem_map.mp (Multiset.mem_coe.mp hw)
            exact hs2.1 n hn)
          (by rw [← ht]; exact hmax) hD
        have hfst' : P'.map Prod.fst
            = (((build_step a b rest).map Node.freqs : List Nat) : Multiset Nat) := by
          rw [hP'f, Multiset.coe_eq_coe.mpr (hperm.map Node.freqs)]
          rfl
        have hbound := hopt P' hfst' ⟨t', by rw [ht', hP's]⟩
        have hsum : ((build_step a b rest).map Node.wpl).sum
            = (Node.inner (a.freqs + b.freqs) a b).wpl + (rest.map Node.wpl).sum := by
          rw [(hperm.map Node.wpl).sum_eq]
          simp
        rw [hsum, wpl_inner, ← freqs_eq_weight a ha.1, ← freqs_eq_weight b hb.1] at hbound
        simp only [List.map_cons, List.sum_cons]
        omega

theorem build_tree_optimal (l : List Node) (hl : l ≠ []) (hs : sorted_freqs l)
    (hinv : ∀ n ∈ l, n.consistent ∧ 1 ≤ n.freqs) :
    ∃ root, build_tree l = some root ∧ root.consistent
      ∧ root.leaves.Perm (l.flatMap Node.leaves)
      ∧ ∀ P : Multiset (Nat × Nat),
          P.map Prod.fst = ((l.map Node.freqs : List Nat) : Multiset Nat) →
          is_shape (P.map Prod.snd) → root.wpl ≤ (l.map Node.wpl).sum + pair_cost P :=
  build_loop_optimal l.length l hl (Nat.le_succ _) hs hinv

/-! ## From the leaf list to the codebook -/

theorem leaf_list_sorted (leaves : List (Nat × Nat)) : sorted_freqs (leaf_list leaves) :=
  (leaf_list_perm_sorted leaves [] List.Pairwise.nil).1

theorem leaf_list_perm (leaves : List (Nat × Nat)) :
    (leaf_list leaves).Perm (leaves.map (fun sf => Node.leaf sf.1 sf.2)) := by
  have h := (leaf_list_perm_sorted leaves [] List.Pairwise.nil).2
  rw [List.append_nil] at h
  exact h.trans ((List.reverse_perm leaves).map _)

theorem leaf_list_leaves (leaves : List (Nat × Nat)) :
    ((leaf_list leaves).flatMap Node.leaves).Perm leaves := by
  refine ((leaf_list_perm leaves).flatMap_right Node.leaves).trans ?_
  have : (leaves.map (fun sf => Node.leaf sf.1 sf.2)).flatMap Node.leaves = leaves := by
    induction leaves with
    | nil => rfl
    | cons sf leaves ih =>
      simp only [List.map_cons, List.flatMap_cons, ih]
      simp [Node.leaves, Node.leaf_paths]
  rw [this]

theorem leaf_list_freqs (leaves : List (Nat × Nat)) :
    ((leaf_list leaves).map Node.freqs).Perm (leaves.map Prod.snd) := by
  refine ((leaf_list_perm leaves).map Node.freqs).trans ?_
  simp [List.map_map, Function.comp_def, Node.freqs]

theorem leaf_list_wpl (leaves : List (Nat × Nat)) : ((leaf_list leaves).map Node.wpl).sum = 0 := by
  rw [((leaf_list_perm leaves).map Node.wpl).sum_eq]
  simp [List.map_map, Function.comp_def, wpl_leaf]

theorem profile_fst (t : Node) :
    t.profile.map Prod.fst = ((t.leaves.map Prod.snd : List Nat) : Multiset Nat) := by
  simp [Node.profile, Node.leaves, List.map_map, Function.comp_def]

theorem profile_snd (t : Node) : t.profile.map Prod.snd = t.depths := by
  simp [Node.profile, Node.depths, List.map_map, Function.comp_def]

theorem profile_cost (t : Node) : pair_cost t.profile = t.wpl := by
  simp [Node.profile, pair_cost, Node.wpl, List.map_map, Function.comp_def]

theorem paths_eq_leaf_paths : ∀ t : Node, t.paths = t.leaf_paths.map (fun x => (x.1.1, x.2)) := by
  intro t
  induction t with
  | leaf s f => rfl
  | inner f a b iha ihb =>
    simp [Node.paths, Node.leaf_paths, iha, ihb, List.map_map, Function.comp_def]

theorem leaf_paths_length_pos : ∀ t : Node, 1 ≤ t.leaf_paths.length := by
  intro t
  induction t with
  | leaf s f => simp [Node.leaf_paths]
  | inner f a b iha ihb =>
    simp only [Node.leaf_paths, List.length_append, List.length_map]
    omega

theorem path_length_lt : ∀ t : Node, ∀ x ∈ t.leaf_paths, x.2.length < t.leaf_paths.length := by
  intro t
  induction t with
  | leaf s f =>
    intro x hx
    simp only [Node.leaf_paths, List.mem_singleton] at hx
    subst hx
    simp [Node.leaf_paths]
  | inner f a b iha ihb =>
    intro x hx
    have ha := leaf_paths_length_pos a
    have hb := leaf_paths_length_pos b
    simp only [Node.leaf_paths, List.mem_append, List.mem_map] at hx
    simp only [Node.leaf_paths, List.length_append, List.length_map]
    rcases hx with ⟨y, hy, rfl⟩ | ⟨y, hy, rfl⟩
    · have := iha y hy
      simp only [List.length_cons]
      omega
    · have := ihb y hy
      simp only [List.length_cons]
      omega

theorem nodup_length_le (l : List Nat) (hnd : l.Nodup) (h : ∀ x ∈ l, x < 256) :
    l.length ≤ 256 := by
  have hsub : l ⊆ List.range 256 := fun x hx => List.mem_range.mpr (h x hx)
  have := (List.subperm_of_subset hnd hsub).length_le
  simpa using this

theorem find_symbol_of_nodup : ∀ (book : List CodeTable), (book.map CodeTable.symbol).Nodup →
    ∀ e ∈ book, book.find? (fun t => t.symbol == e.symbol) = some e := by
  intro book hnd e he
  cases hf : book.find? (fun t => t.symbol == e.symbol) with
  | none =>
    have := List.find?_eq_none.mp hf e he
    simp at this
  | some t =>
    have htm := List.mem_of_find?_eq_some hf
    have htp := List.find?_some hf
    simp only [beq_iff_eq] at htp
    rw [List.inj_on_of_nodup_map hnd htm he htp]

theorem weighted_length_tree (root : Node) (leaves : List (Nat × Nat))
    (hperm : root.leaves.Perm leaves) (hnd : (leaves.map Prod.fst).Nodup)
    (hsym : ∀ sf ∈ leaves, sf.1 < 256) :
    weighted_length leaves (tree2book root) = root.wpl := by
  have hbook : tree2book root = root.leaf_paths.map (fun x => path_entry 0 0 (x.1.1, x.2)) := by
    rw [tree2book_eq_paths, paths_eq_leaf_paths, List.map_map]
    rfl
  have hsymbols : (tree2book root).map CodeTable.symbol = root.leaves.map Prod.fst := by
    rw [hbook]
    simp [Node.leaves, List.map_map, Function.comp_def, path_entry]
  have hnd' : ((tree2book root).map CodeTable.symbol).Nodup := by
    rw [hsymbols]
    exact (hperm.map Prod.fst).nodup_iff.mpr hnd
  have hcount : root.leaf_paths.length ≤ 256 := by
    have h1 : root.leaf_paths.length = leaves.length := by
      rw [← hperm.length_eq]
      simp [Node.leaves]
    have h2 := nodup_length_le (leaves.map Prod.fst) hnd (by
      intro x hx
      obtain ⟨sf, hsf, rfl⟩ := List.mem_map.mp hx
      exact hsym sf hsf)
    rw [List.length_map] at h2
    omega
  have hlen : ∀ x ∈ root.leaf_paths, assigned_length (tree2book root) x.1.1 = x.2.length := by
    intro x hx
    have hmem : path_entry 0 0 (x.1.1, x.2) ∈ tree2book root := by
      rw [hbook]
      exact List.mem_map.mpr ⟨x, hx, rfl⟩
    have hfind := find_symbol_of_nodup (tree2book root) hnd' _ hmem
    have hlt := path_length_lt root x hx
    have e : (path_entry 0 0 (x.1.1, x.2)).symbol = x.1.1 := rfl
    rw [e] at hfind
    simp only [assigned_length, hfind, path_entry]
    omega
  unfold weighted_length
  rw [← (hperm.map (fun sf => sf.2 * assigned_length (tree2book root) sf.1)).sum_eq]
  simp only [Node.leaves, Node.wpl, List.map_map, Function.comp_def]
  congr 1
  apply List.map_congr_left
  intro x hx
  rw [hlen x hx]

/-! ## Counting the nodes of a tree -/

theorem leaves_length (t : Node) : t.leaves.length = t.inner_count + 1 := by
  induction t with
  | leaf s f => simp [Node.leaves, Node.leaf_paths, Node.inner_count]
  | inner f a b iha ihb =>
    rw [leaves_inner, List.length_append, iha, ihb]
    simp only [Node.inner_count]
    omega

theorem node_count_eq (t : Node) : t.node_count = t.leaves.length + t.inner_count := by
  induction t with
  | leaf s f => simp [Node.leaves, Node.leaf_paths, Node.inner_count, Node.node_count]
  | inner f a b iha ihb =>
    rw [leaves_inner, List.length_append]
    simp only [Node.inner_count, Node.node_count]
    omega

theorem weight_eq_sum (t : Node) : t.weight = (t.leaves.map Prod.snd).sum := by
  simp [Node.weight, Node.leaves, List.map_map, Function.comp_def]

theorem flatMap_leaves_leaf (leaves : List (Nat × Nat)) :
    (leaves.map (fun sf => Node.leaf sf.1 sf.2)).flatMap Node.leaves = leaves := by
  induction leaves with
  | nil => rfl
  | cons sf leaves ih =>
    simp only [List.map_cons, List.flatMap_cons, ih]
    rfl

/-! ## Frequency table and degenerate inputs -/

theorem init_symbol_loop_replicate (a : Nat) (n : Nat) :
    init_symbol_loop (List.replicate n a) [a] = [a] := by
  induction n with
  | zero => rfl
  | succ n ih => simp [List.replicate_succ, init_symbol_loop, ih]

theorem init_symbol_list_replicate (a : Nat) (n : Nat) :
    init_symbol_list (List.replicate (n + 1) a) = [a] := by
  simp [init_symbol_list, List.replicate_succ, init_symbol_loop, init_symbol_loop_replicate]

theorem count_occurrences_replicate (a : Nat) (n k : Nat) :
    count_occurrences [a] (List.replicate n a) [k] = [k + n] := by
  induction n generalizing k with
  | zero => rfl
  | succ n ih =>
    simp only [List.replicate_succ, count_occurrences, count_occurrence, if_true, ih]
    congr 1
    omega

theorem init_tree_from_buf_replicate (a : Nat) (n : Nat) :
    init_tree_from_buf (List.replicate (n + 1) a) =
      { root := [Node.leaf a (n + 1)], num_symbols := 1 } := by
  have h := count_occurrences_replicate a (n + 1) 0
  simp only [Nat.zero_add] at h
  simp [init_tree_from_buf, init_symbol_list_replicate, h, add_leaves, add_node]

theorem print_tables_endless (num_symbols : Nat) (book : List CodeTable)
    (hn : 256 ≤ num_symbols) (hb : 256 ≤ book.length) :
    ∀ (fuel i : Nat), i + fuel ≤ 256 →
      print_tables num_symbols book fuel i = .error .endless_loop := by
  intro fuel
  induction fuel with
  | zero => intro i _; rfl
  | succ fuel ih =>
    intro i hi
    have h1 : i < num_symbols := by omega
    have h2 : i < book.length := by omega
    have hget : book.get? i = some book[i] := by simp [List.getElem?_eq_getElem h2]
    have hmod : (i + 1) % 256 = i + 1 ∨ fuel = 0 := by omega
    rw [print_tables, if_pos h1, hget]
    rcases hmod with h | h
    · simp only [h]
      exact ih (i + 1) (by omega)
    · subst h
      rfl

/-- C1 (code bug): the two-byte input "AB" is encoded without a fault, and
decoding the container gives the empty sequence, not "AB": its two code bits
stay in the statics of `write_bit` and never reach the file. The input "A" is
lost too, and the empty input stops in `build_tree`. The input "AAAABCCCDDE",
whose codes fill three whole bytes, comes back unchanged. -/
theorem encode_decode_loses_input :
    encode_file [0x41, 0x42] =
        .ok (FILE_SIGN ++ [2, 0, 0, 0, 0, 0, 0, 0] ++ [0x42, 1, 0] ++ [0x41, 1, 1]
          ++ [GROUP_SEPARATOR] ++ [2, 0, 0, 0, 0, 0, 0, 0] ++ [GROUP_SEPARATOR]
          ++ [GROUP_SEPARATOR] ++ [2, 0, 0, 0, 0, 0, 0, 0])
      ∧ encode_decode [0x41, 0x42] = .ok []
      ∧ encode_decode [0x41] = .ok []
      ∧ encode_decode [] = .error .null_deref
      ∧ encode_decode [0x41, 0x41, 0x41, 0x41, 0x42, 0x43, 0x43, 0x43, 0x44, 0x44, 0x45] =
        .ok [0x41, 0x41, 0x41, 0x41, 0x42, 0x43, 0x43, 0x43, 0x44, 0x44, 0x45] := by
  refine ⟨?_, ?_, ?_, ?_, ?_⟩ <;> decide

/-- C5 (code bug): for the input "ABA" the leaf list has three leaves, two of
them for the byte 'A': one with frequency 2 and one with frequency 0. The
symbol list of `init_symbol_list` only drops a byte equal to its predecessor. -/
theorem init_tree_from_buf_ABA :
    init_symbol_list [0x41, 0x42, 0x41] = [0x41, 0x42, 0x41]
      ∧ init_tree_from_buf [0x41, 0x42, 0x41] =
        { root := [Node.leaf 0x41 0, Node.leaf 0x42 1, Node.leaf 0x41 2], num_symbols := 3 } := by
  constructor <;> decide

/-- C6 (code bug): for an input of `n + 1` copies of one byte `a` the list has
the single leaf `(a, n + 1)`, `build_tree` returns it without a merge, and
the codebook is the single entry `(a, code 0, num_bits 0)`: the length is 0,
not 1. -/
theorem single_symbol_codebook (a n : Nat) :
    (init_tree_from_buf (List.replicate (n + 1) a)).root = [Node.leaf a (n + 1)]
      ∧ build_tree (init_tree_from_buf (List.replicate (n + 1) a)).root
          = some (Node.leaf a (n + 1))
      ∧ tree2book (Node.leaf a (n + 1)) = [{ symbol := a, code := 0, num_bits := 0 }] := by
  rw [init_tree_from_buf_replicate]
  exact ⟨rfl, rfl, rfl⟩

/-- C7 (code bug): for the empty input the node list is empty (`tree->root` is
`NULL`), `build_tree` reads `head->next` of that null pointer, and `encode`
ends there: no container is written. -/
theorem encode_empty_input :
    (init_tree_from_buf []).root = []
      ∧ build_tree (init_tree_from_buf []).root = none
      ∧ encode (BitWriter.fresh, []) [] = .error .null_deref := by
  refine ⟨?_, ?_, ?_⟩ <;> decide

/-! ## Greedy decoding -/

/-- C2 (as amended): greedy decoding inverts the writer for a prefix-free
codebook with code values below `2 ^ num_bits`. For a codebook of at most 255
entries with `1 ≤ num_bits ≤ 32` and `code < 2 ^ num_bits`, pairwise
prefix-free, and symbols that all occur in it, the loop of `compress` started
with the fresh statics of `write_bit` returns; if the bit count it returns is
a multiple of 8 and no byte it wrote is the separator, the `while` loop of
`decode` run on those bytes, alone or followed by a separator, leaves exactly
the symbols in `data`, with an empty accumulator. -/
theorem greedy_decode_prefix_free (book : List CodeTable) (syms : List Nat)
    (hlen : book.length ≤ 255)
    (hwf : ∀ t ∈ book, 1 ≤ t.num_bits ∧ t.num_bits ≤ 32 ∧ t.code < 2 ^ t.num_bits)
    (hpf : book.Pairwise (fun t u => unrelated (code_bits t) (code_bits u)))
    (hsyms : ∀ s ∈ syms, ∃ t ∈ book, t.symbol = s) :
    ∃ count w bytes, write_data book syms 0 (BitWriter.fresh, []) = .ok (count, (w, bytes))
      ∧ (count % 8 = 0 → (∀ b ∈ bytes, b ≠ GROUP_SEPARATOR) →
          decode_data book bytes (0, 0, []) = .ok ((0, 0, syms), none)
            ∧ ∀ rest, decode_data book (bytes ++ GROUP_SEPARATOR :: rest) (0, 0, [])
                = .ok ((0, 0, syms), some rest)) := by
  have hlen' : book.length < 256 := by omega
  have hw := write_data_eq_bits book hlen' syms 0 (BitWriter.fresh, [])
  rw [Nat.zero_add] at hw
  have hbin : ∀ b ∈ syms.flatMap (symbol_bits book), b < 2 := by
    intro b hb
    obtain ⟨s, _, hbs⟩ := List.mem_flatMap.mp hb
    exact symbol_bits_binary book s b hbs
  by_cases h8 : (syms.flatMap (symbol_bits book)).length % 8 = 0
  · obtain ⟨bytes, hbytes, hunpack⟩ := write_bits_whole_bytes
      ((syms.flatMap (symbol_bits book)).length / 8) (syms.flatMap (symbol_bits book)) []
      (by omega) hbin
    rw [hbytes, List.nil_append] at hw
    refine ⟨(syms.flatMap (symbol_bits book)).length, BitWriter.fresh, bytes, hw, fun _ hsep => ?_⟩
    have hdec := decode_symbols book hlen' hwf hpf syms [] hsyms
    rw [← hunpack, List.nil_append] at hdec
    refine ⟨?_, fun rest => ?_⟩
    · rw [(decode_data_eq_bits book bytes (0, 0, []) hsep []).1, hdec]
    · rw [(decode_data_eq_bits book bytes (0, 0, []) hsep rest).2, hdec]
  · exact ⟨(syms.flatMap (symbol_bits book)).length,
      (write_bits (syms.flatMap (symbol_bits book)) (BitWriter.fresh, [])).1,
      (write_bits (syms.flatMap (symbol_bits book)) (BitWriter.fresh, [])).2, hw,
      fun h => absurd h h8⟩

theorem greedy_decode_prefix_free_witness :
    decode_data
        [{ symbol := 0x41, code := 0, num_bits := 1 }, { symbol := 0x43, code := 2, num_bits := 2 },
          { symbol := 0x45, code := 12, num_bits := 4 }, { symbol := 0x42, code := 13, num_bits := 4 },
          { symbol := 0x44, code := 7, num_bits := 3 }]
        [0x0D, 0xAB, 0xFC] (0, 0, [])
      = .ok ((0, 0, [0x41, 0x41, 0x41, 0x41, 0x42, 0x43, 0x43, 0x43, 0x44, 0x44, 0x45]), none) := by
  obtain ⟨count, w, bytes, hw, h⟩ := greedy_decode_prefix_free
    [{ symbol := 0x41, code := 0, num_bits := 1 }, { symbol := 0x43, code := 2, num_bits := 2 },
      { symbol := 0x45, code := 12, num_bits := 4 }, { symbol := 0x42, code := 13, num_bits := 4 },
      { symbol := 0x44, code := 7, num_bits := 3 }]
    [0x41, 0x41, 0x41, 0x41, 0x42, 0x43, 0x43, 0x43, 0x44, 0x44, 0x45]
    (by decide) (by decide) (by decide) (by decide)
  have e : write_data
      [{ symbol := 0x41, code := 0, num_bits := 1 }, { symbol := 0x43, code := 2, num_bits := 2 },
        { symbol := 0x45, code := 12, num_bits := 4 }, { symbol := 0x42, code := 13, num_bits := 4 },
        { symbol := 0x44, code := 7, num_bits := 3 }]
      [0x41, 0x41, 0x41, 0x41, 0x42, 0x43, 0x43, 0x43, 0x44, 0x44, 0x45] 0 (BitWriter.fresh, [])
      = .ok (24, (BitWriter.fresh, [0x0D, 0xAB, 0xFC])) := by decide
  rw [e] at hw
  simp only [Except.ok.injEq, Prod.mk.injEq] at hw
  obtain ⟨hc, _, hb⟩ := hw
  subst hc hb
  exact (h (by decide) (by decide)).1

/-- C2 (counterexample): the one-entry codebook `(0x41, code 2, 1 bit)` meets
every condition of the claim: one entry, length 1, nothing to be a prefix of.
For eight symbols 0x41 `write_code` writes the low bit of the code eight times,
the byte 0x00, 8 bits in all and no separator; the loop of `decode` run on that
byte never finds `(bits, bit_count)` in the codebook and emits no symbol. -/
theorem greedy_decode_fails_wide_code :
    [({ symbol := 0x41, code := 2, num_bits := 1 } : CodeTable)].length ≤ 255
      ∧ (∀ t ∈ [({ symbol := 0x41, code := 2, num_bits := 1 } : CodeTable)],
          1 ≤ t.num_bits ∧ t.num_bits ≤ 32)
      ∧ [({ symbol := 0x41, code := 2, num_bits := 1 } : CodeTable)].Pairwise
          (fun t u => unrelated (code_bits t) (code_bits u))
      ∧ (∀ s ∈ List.replicate 8 0x41,
          ∃ t ∈ [({ symbol := 0x41, code := 2, num_bits := 1 } : CodeTable)], t.symbol = s)
      ∧ write_data [{ symbol := 0x41, code := 2, num_bits := 1 }] (List.replicate 8 0x41) 0
          (BitWriter.fresh, []) = .ok (8, (BitWriter.fresh, [0x00]))
      ∧ 8 % 8 = 0
      ∧ (∀ b ∈ [0x00], b ≠ GROUP_SEPARATOR)
      ∧ decode_data [{ symbol := 0x41, code := 2, num_bits := 1 }] [0x00] (0, 0, [])
          = .ok ((0, 8, []), none)
      ∧ decode_data [{ symbol := 0x41, code := 2, num_bits := 1 }] [0x00] (0, 0, [])
          ≠ .ok ((0, 0, List.replicate 8 0x41), none) := by
  refine ⟨?_, ?_, ?_, ?_, ?_, ?_, ?_, ?_, ?_⟩ <;> decide

/-! ## Prefix-freedom -/

/-- C4: optimality. For a list of at least two (symbol, frequency) pairs with
distinct byte symbols and frequencies of at least 1, linked in with
`add_node`, `build_tree` returns a tree whose leaves are exactly those pairs;
the weighted length of the codebook `tree2book` derives from it (the sum of
frequency x code length) is the weighted path length of that tree, and no
binary tree with the same leaves has a smaller weighted path length. -/
theorem huffman_optimal (leaves : List (Nat × Nat)) (hN : 2 ≤ leaves.length)
    (hnd : (leaves.map Prod.fst).Nodup) (hsym : ∀ sf ∈ leaves, sf.1 < 256)
    (hf : ∀ sf ∈ leaves, 1 ≤ sf.2) :
    ∃ root, build_tree (leaf_list leaves) = some root
      ∧ root.leaves.Perm leaves
      ∧ weighted_length leaves (tree2book root) = root.wpl
      ∧ ∀ t : Node, t.leaves.Perm leaves → root.wpl ≤ t.wpl := by
  have hne : leaf_list leaves ≠ [] := by
    intro h0
    have := (leaf_list_perm leaves).length_eq
    rw [h0, List.length_map] at this
    simp at this
    omega
  have hinv : ∀ n ∈ leaf_list leaves, n.consistent ∧ 1 ≤ n.freqs := by
    intro n hn
    obtain ⟨sf, hsf, rfl⟩ := List.mem_map.mp ((leaf_list_perm leaves).subset hn)
    exact ⟨trivial, hf sf hsf⟩
  obtain ⟨root, hroot, _, hleaves, hopt⟩ :=
    build_tree_optimal (leaf_list leaves) hne (leaf_list_sorted leaves) hinv
  have hperm : root.leaves.Perm leaves := hleaves.trans (leaf_list_leaves leaves)
  refine ⟨root, hroot, hperm, weighted_length_tree root leaves hperm hnd hsym, fun t ht => ?_⟩
  have h := hopt t.profile
    (by
      rw [profile_fst]
      exact Multiset.coe_eq_coe.mpr ((ht.map Prod.snd).trans (leaf_list_freqs leaves).symm))
    ⟨t, (profile_snd t).symm⟩
  rw [leaf_list_wpl, profile_cost, Nat.zero_add] at h
  exact h

theorem huffman_optimal_witness :
    ∃ root, build_tree (leaf_list [(0x41, 4), (0x42, 1), (0x43, 3), (0x44, 2), (0x45, 1)])
        = some root
      ∧ weighted_length [(0x41, 4), (0x42, 1), (0x43, 3), (0x44, 2), (0x45, 1)] (tree2book root)
        = 24
      ∧ ∀ t : Node, t.leaves.Perm [(0x41, 4), (0x42, 1), (0x43, 3), (0x44, 2), (0x45, 1)] →
          24 ≤ t.wpl := by
  obtain ⟨root, hroot, _, hw, hopt⟩ := huffman_optimal
    [(0x41, 4), (0x42, 1), (0x43, 3), (0x44, 2), (0x45, 1)] (by decide) (by decide) (by decide)
    (by decide)
  have e : build_tree (leaf_list [(0x41, 4), (0x42, 1), (0x43, 3), (0x44, 2), (0x45, 1)])
      = some (Node.inner 11 (Node.leaf 0x41 4) (Node.inner 7 (Node.leaf 0x43 3)
          (Node.inner 4 (Node.inner 2 (Node.leaf 0x45 1) (Node.leaf 0x42 1))
            (Node.leaf 0x44 2)))) := by decide
  have h24 : root.wpl = 24 := by
    rw [e] at hroot
    cases hroot
    decide
  refine ⟨root, hroot, by rw [hw, h24], fun t ht => ?_⟩
  rw [← h24]
  exact hopt t ht

/-! ## Container layout -/

/-- C8: the container of `compress`. Whenever `compress` returns, the file it
wrote into an empty file is the 8 bytes of `FILE_SIGN`, the 8 bytes of the
entry count, the entries in codebook order, a separator byte, the 8 bytes of
the input length, a separator byte, the bytes `write_bit` put out for the
input, a separator byte and the 8 bytes of the bit count, and nothing else.
It returns for every codebook of fewer than 256 entries with codes of at most
32 bits. -/
theorem compress_layout (w : BitWriter) (buf : List Nat) (book : List CodeTable) :
    (book.length < 256 → (∀ t ∈ book, t.num_bits ≤ 32) →
        ∃ out, compress (w, []) buf book = .ok out)
      ∧ ∀ out, compress (w, []) buf book = .ok out →
          ∃ count bitstream, write_data book buf 0 (w, []) = .ok (count, (out.1, bitstream))
            ∧ out.2 = FILE_SIGN ++ u64_bytes book.length ++ book.flatMap table_bytes
                ++ [GROUP_SEPARATOR] ++ u64_bytes buf.length ++ [GROUP_SEPARATOR] ++ bitstream
                ++ [GROUP_SEPARATOR] ++ u64_bytes count
            ∧ FILE_SIGN = [0x48, 0x55, 0x46, 0x46, 0x42, 0x4f, 0x4f, 0x4b]
            ∧ GROUP_SEPARATOR = 0x29
            ∧ (u64_bytes book.length).length = 8
            ∧ (u64_bytes buf.length).length = 8
            ∧ (u64_bytes count).length = 8 := by
  constructor
  · intro hlen hbits
    rw [compress_eq, if_pos (fun t ht => code_size_le_four (hbits t ht))]
    obtain ⟨r, hr⟩ := write_data_returns book hlen buf 0 (w, [])
    rw [hr]
    exact ⟨_, rfl⟩
  · intro out hout
    rw [compress_eq] at hout
    split_ifs at hout with h
    cases hr : write_data book buf 0 (w, []) with
    | error e => rw [hr] at hout; cases hout
    | ok r =>
      rw [hr] at hout
      obtain ⟨count, w', bitstream⟩ := r
      simp only [Except.ok.injEq] at hout
      subst hout
      refine ⟨count, bitstream, rfl, ?_, rfl, rfl, ?_, ?_, ?_⟩
      · simp
      all_goals exact le_bytes_length _ _

theorem compress_layout_witness :
    ∃ out, compress (BitWriter.fresh, []) [0x41, 0x42]
        [{ symbol := 0x42, code := 0, num_bits := 1 }, { symbol := 0x41, code := 1, num_bits := 1 }]
      = .ok out :=
  (compress_layout BitWriter.fresh [0x41, 0x42]
    [{ symbol := 0x42, code := 0, num_bits := 1 }, { symbol := 0x41, code := 1, num_bits := 1 }]).1
    (by decide) (by decide)

/-! ## Codebook serialisation -/

/-- C9: a codebook survives the container. For a codebook whose entries have
`num_bits ≤ 32` and `code < 2 ^ num_bits`, `compress` writes each entry as its
symbol byte, its length byte and `⌈num_bits / 8⌉` code bytes, and
`read_codebook` applied to the file `compress` wrote returns the same entries
in the same order, leaving the file position on the separator that follows
the codebook. `compress` returns whenever the codebook has fewer than 256
entries. -/
theorem read_codebook_compress (w : BitWriter) (buf : List Nat) (book : List CodeTable)
    (hlen : book.length < 2 ^ 64)
    (hwf : ∀ t ∈ book, t.num_bits ≤ 32 ∧ t.code < 2 ^ t.num_bits) :
    (book.length < 256 → ∃ out, compress (w, []) buf book = .ok out)
      ∧ (∀ t ∈ book, ∃ cs, table_bytes t = t.symbol :: t.num_bits :: cs
            ∧ cs.length = (t.num_bits + 7) / 8)
      ∧ ∀ out, compress (w, []) buf book = .ok out →
          ∃ rest, out.2 = FILE_SIGN ++ u64_bytes book.length ++ book.flatMap table_bytes
                ++ GROUP_SEPARATOR :: rest
            ∧ read_codebook out.2 = .ok (book, GROUP_SEPARATOR :: rest) := by
  refine ⟨fun h256 => ?_, fun t _ => ?_, fun out hout => ?_⟩
  · rw [compress_eq, if_pos (fun t ht => code_size_le_four (hwf t ht).1)]
    obtain ⟨r, hr⟩ := write_data_returns book h256 buf 0 (w, [])
    rw [hr]
    exact ⟨_, rfl⟩
  · exact ⟨le_bytes t.code (code_size t.num_bits), rfl, by rw [le_bytes_length, code_size_eq]⟩
  · rw [compress_eq, if_pos (fun t ht => code_size_le_four (hwf t ht).1)] at hout
    cases hr : write_data book buf 0 (w, []) with
    | error e => rw [hr] at hout; cases hout
    | ok r =>
      rw [hr] at hout
      simp only [Except.ok.injEq] at hout
      subst hout
      refine ⟨u64_bytes buf.length ++ [GROUP_SEPARATOR] ++ r.2.2 ++ [GROUP_SEPARATOR]
        ++ u64_bytes r.1, by simp, ?_⟩
      have := read_codebook_container book (GROUP_SEPARATOR :: (u64_bytes buf.length
        ++ [GROUP_SEPARATOR] ++ r.2.2 ++ [GROUP_SEPARATOR] ++ u64_bytes r.1)) hlen hwf
      simpa using this

theorem read_codebook_compress_witness :
    ∃ out, compress (BitWriter.fresh, []) [0x41, 0x42]
        [{ symbol := 0x42, code := 0, num_bits := 1 }, { symbol := 0x41, code := 1, num_bits := 1 }]
      = .ok out :=
  (read_codebook_compress BitWriter.fresh [0x41, 0x42]
    [{ symbol := 0x42, code := 0, num_bits := 1 }, { symbol := 0x41, code := 1, num_bits := 1 }]
    (by decide) (by decide)).1 (by decide)

/-! ## Total-bits field -/

/-- C10: the total-bits field. Whenever `compress` returns, the last 8 bytes
of the file hold the sum, over the bytes of the input, of the code length
assigned to the byte (the `num_bits` of the first entry for it, and nothing
for a byte without an entry). That sum is the sum over the distinct bytes of
the input of (number of occurrences) x (assigned length). `compress` returns
for every codebook of fewer than 256 entries with codes of at most 32 bits. -/
theorem compress_total_bits (w : BitWriter) (buf : List Nat) (book : List CodeTable) :
    (book.length < 256 → (∀ t ∈ book, t.num_bits ≤ 32) →
        ∃ out, compress (w, []) buf book = .ok out)
      ∧ (∀ out, compress (w, []) buf book = .ok out →
          ∃ front, out.2 = front ++ GROUP_SEPARATOR :: u64_bytes ((buf.map (assigned_length book)).sum)
            ∧ (u64_bytes ((buf.map (assigned_length book)).sum)).length = 8)
      ∧ (buf.map (assigned_length book)).sum
          = (buf.dedup.map (fun s => buf.count s * assigned_length book s)).sum := by
  refine ⟨fun hlen hbits => ?_, fun out hout => ?_, sum_map_eq_sum_dedup _ _⟩
  · rw [compress_eq, if_pos (fun t ht => code_size_le_four (hbits t ht))]
    obtain ⟨r, hr⟩ := write_data_returns book hlen buf 0 (w, [])
    rw [hr]
    exact ⟨_, rfl⟩
  · rw [compress_eq] at hout
    split_ifs at hout with h
    cases hr : write_data book buf 0 (w, []) with
    | error e => rw [hr] at hout; cases hout
    | ok r =>
      rw [hr] at hout
      have hc := write_data_count book buf 0 (w, []) r hr
      simp only [Nat.zero_add] at hc
      simp only [Except.ok.injEq] at hout
      subst hout
      rw [hc]
      refine ⟨FILE_SIGN ++ u64_bytes book.length ++ book.flatMap table_bytes
        ++ [GROUP_SEPARATOR] ++ u64_bytes buf.length ++ [GROUP_SEPARATOR] ++ r.2.2, ?_,
        le_bytes_length _ _⟩
      simp

theorem compress_total_bits_witness :
    (∃ out, compress (BitWriter.fresh, [])
        [0x41, 0x41, 0x41, 0x41, 0x42, 0x43, 0x43, 0x43, 0x44, 0x44, 0x45]
        [{ symbol := 0x41, code := 0, num_bits := 1 }, { symbol := 0x43, code := 2, num_bits := 2 },
          { symbol := 0x45, code := 12, num_bits := 4 }, { symbol := 0x42, code := 13, num_bits := 4 },
          { symbol := 0x44, code := 7, num_bits := 3 }] = .ok out)
      ∧ tree2book (Node.inner 11 (Node.leaf 0x41 4) (Node.inner 7 (Node.leaf 0x43 3)
          (Node.inner 4 (Node.inner 2 (Node.leaf 0x45 1) (Node.leaf 0x42 1)) (Node.leaf 0x44 2))))
        = [{ symbol := 0x41, code := 0, num_bits := 1 }, { symbol := 0x43, code := 2, num_bits := 2 },
          { symbol := 0x45, code := 12, num_bits := 4 }, { symbol := 0x42, code := 13, num_bits := 4 },
          { symbol := 0x44, code := 7, num_bits := 3 }]
      ∧ ([0x41, 0x41, 0x41, 0x41, 0x42, 0x43, 0x43, 0x43, 0x44, 0x44, 0x45].map
          (assigned_length
            [{ symbol := 0x41, code := 0, num_bits := 1 }, { symbol := 0x43, code := 2, num_bits := 2 },
              { symbol := 0x45, code := 12, num_bits := 4 },
              { symbol := 0x42, code := 13, num_bits := 4 },
              { symbol := 0x44, code := 7, num_bits := 3 }])).sum = 24 :=
  ⟨(compress_total_bits BitWriter.fresh _ _).1 (by decide) (by decide), by decide, by decide⟩

/-! ## End of the bitstream -/

/-- C11 (code bug): `compress` has no flush. Started with the fresh statics of
`write_bit`, its loop over the input puts out one byte for every 8 bits and
nothing for the bits left over: the bitstream section has `count / 8` bytes,
rounded down. For the input "AB" (codes A = 1, B = 0) the bit count is 2 and
the section between the last two separators is empty, where a flushed stream
would hold the one byte 0x80. -/
theorem bitstream_drops_leftover_bits :
    (∀ (book : List CodeTable) (buf : List Nat), book.length < 256 →
        ∃ count w bitstream,
          write_data book buf 0 (BitWriter.fresh, []) = .ok (count, (w, bitstream))
            ∧ bitstream.length = count / 8)
      ∧ write_data [{ symbol := 0x42, code := 0, num_bits := 1 },
            { symbol := 0x41, code := 1, num_bits := 1 }] [0x41, 0x42] 0 (BitWriter.fresh, [])
          = .ok (2, ({ byte := 0x80, bit_idx := 6 }, []))
      ∧ encode_file [0x41, 0x42] =
          .ok (FILE_SIGN ++ [2, 0, 0, 0, 0, 0, 0, 0] ++ [0x42, 1, 0] ++ [0x41, 1, 1]
            ++ [GROUP_SEPARATOR] ++ [2, 0, 0, 0, 0, 0, 0, 0] ++ [GROUP_SEPARATOR]
            ++ [] ++ [GROUP_SEPARATOR] ++ [2, 0, 0, 0, 0, 0, 0, 0]) := by
  refine ⟨fun book buf hlen => ?_, by decide, by decide⟩
  have h := write_data_eq_bits book hlen buf 0 (BitWriter.fresh, [])
  rw [Nat.zero_add] at h
  exact ⟨_, _, _, h, write_bits_fresh_length _⟩

/-! ## Framing of the container read by `decode` -/

/-- C13 (code bug): the loop of `decode` has no test against `origin_len`. On
the container of "AAAABCCCDDE" with the original-length field set to 1 the
header is accepted, the array `data` has one element, and the loop goes on to
store all 11 decoded symbols: `data[1]` .. `data[10]` lie outside the array. -/
theorem decode_overruns_data :
    read_codebook short_length_file
        = .ok ([{ symbol := 0x41, code := 0, num_bits := 1 }, { symbol := 0x43, code := 2, num_bits := 2 },
                { symbol := 0x45, code := 12, num_bits := 4 }, { symbol := 0x42, code := 13, num_bits := 4 },
                { symbol := 0x44, code := 7, num_bits := 3 }],
               [GROUP_SEPARATOR] ++ [1, 0, 0, 0, 0, 0, 0, 0] ++ [GROUP_SEPARATOR]
                 ++ [0x0d, 0xab, 0xfc] ++ [GROUP_SEPARATOR] ++ [24, 0, 0, 0, 0, 0, 0, 0])
      ∧ le_value [1, 0, 0, 0, 0, 0, 0, 0] = 1
      ∧ decode_data [{ symbol := 0x41, code := 0, num_bits := 1 }, { symbol := 0x43, code := 2, num_bits := 2 },
                { symbol := 0x45, code := 12, num_bits := 4 }, { symbol := 0x42, code := 13, num_bits := 4 },
                { symbol := 0x44, code := 7, num_bits := 3 }]
            ([0x0d, 0xab, 0xfc] ++ [GROUP_SEPARATOR] ++ [24, 0, 0, 0, 0, 0, 0, 0]) (0, 0, [])
          = .ok ((0, 0, [0x41, 0x41, 0x41, 0x41, 0x42, 0x43, 0x43, 0x43, 0x44, 0x44, 0x45]),
                 some [24, 0, 0, 0, 0, 0, 0, 0])
      ∧ decode short_length_file = .error .out_of_bounds := by
  refine ⟨by decide, by decide, by decide, by decide⟩

/-! ## Codes longer than the `code` field -/

/-- C14 (code bug): `dfs` has no test of `len` against the width of `code`,
and `tree2book` returns a codebook for every tree. The tree `build_tree` makes
of the 34 leaves of `deep_leaves` has a leaf at depth 33, and `tree2book`
returns a codebook of 34 entries for it. The leaf of symbol 2 is reached by 32
steps to `children[1]` and one to `children[0]`, which spell 0x1FFFFFFFE; its
entry holds the code 0xFFFFFFFE with 33 bits: the leading bit was shifted out
of the 32-bit field, where a "code too long" failure was due. -/
theorem tree2book_returns_deep :
    ∃ root, build_tree deep_leaves = some root
      ∧ 32 < root.height
      ∧ (tree2book root).length = 34
      ∧ root.paths.get? 32 = some (2, List.replicate 32 1 ++ [0])
      ∧ path_value (List.replicate 32 1 ++ [0]) = 0x1FFFFFFFE
      ∧ (tree2book root).get? 32 = some { symbol := 2, code := 0xFFFFFFFE, num_bits := 33 } := by
  obtain ⟨root, hroot⟩ := build_tree_returns deep_leaves (by decide)
  have h1 : (build_tree deep_leaves).map (fun r => (tree2book r).length) = some 34 := by decide
  have h2 : (build_tree deep_leaves).map (fun r => r.paths.get? 32)
      = some (some (2, List.replicate 32 1 ++ [0])) := by decide
  have h3 : (build_tree deep_leaves).map (fun r => (tree2book r).get? 32)
      = some (some { symbol := 2, code := 0xFFFFFFFE, num_bits := 33 }) := by decide
  rw [hroot] at h1 h2 h3
  simp only [Option.map_some', Option.some.injEq] at h1 h2 h3
  have hmem : (2, List.replicate 32 1 ++ [0]) ∈ root.paths := List.get?_mem h2
  have hdeep := paths_length_le root _ hmem
  simp only [List.length_append, List.length_replicate, List.length_singleton] at hdeep
  exact ⟨root, hroot, by omega, h1, h2, by decide, h3⟩

/-! ## Two calls of `compress` in one process -/

/-- C15 (code bug): `compress` neither flushes nor resets the statics of
`write_bit`, so what one call leaves in them goes into the file of the next.
Two calls with the buffer "AABB" and its codebook (B = 0, A = 1), each into a
new file: the first, started with the statics at their initial values, writes
no bitstream byte and leaves the four code bits 1100 in the accumulator; the
second starts from them and writes the byte 0xCC into its bitstream section.
The two containers differ. -/
theorem compress_twice_differs :
    (build_tree (init_tree_from_buf [0x41, 0x41, 0x42, 0x42]).root).map tree2book
        = some [{ symbol := 0x42, code := 0, num_bits := 1 },
            { symbol := 0x41, code := 1, num_bits := 1 }]
      ∧ compress (BitWriter.fresh, []) [0x41, 0x41, 0x42, 0x42]
          [{ symbol := 0x42, code := 0, num_bits := 1 }, { symbol := 0x41, code := 1, num_bits := 1 }]
        = .ok ({ byte := 0xC0, bit_idx := 4 },
            FILE_SIGN ++ [2, 0, 0, 0, 0, 0, 0, 0] ++ [0x42, 1, 0] ++ [0x41, 1, 1]
              ++ [GROUP_SEPARATOR] ++ [4, 0, 0, 0, 0, 0, 0, 0] ++ [GROUP_SEPARATOR]
              ++ [] ++ [GROUP_SEPARATOR] ++ [4, 0, 0, 0, 0, 0, 0, 0])
      ∧ compress ({ byte := 0xC0, bit_idx := 4 }, []) [0x41, 0x41, 0x42, 0x42]
          [{ symbol := 0x42, code := 0, num_bits := 1 }, { symbol := 0x41, code := 1, num_bits := 1 }]
        = .ok (BitWriter.fresh,
            FILE_SIGN ++ [2, 0, 0, 0, 0, 0, 0, 0] ++ [0x42, 1, 0] ++ [0x41, 1, 1]
              ++ [GROUP_SEPARATOR] ++ [4, 0, 0, 0, 0, 0, 0, 0] ++ [GROUP_SEPARATOR]
              ++ [0xCC] ++ [GROUP_SEPARATOR] ++ [4, 0, 0, 0, 0, 0, 0, 0])
      ∧ (compress (BitWriter.fresh, []) [0x41, 0x41, 0x42, 0x42]
            [{ symbol := 0x42, code := 0, num_bits := 1 },
              { symbol := 0x41, code := 1, num_bits := 1 }]).map Prod.snd
          ≠ (compress ({ byte := 0xC0, bit_idx := 4 }, []) [0x41, 0x41, 0x42, 0x42]
            [{ symbol := 0x42, code := 0, num_bits := 1 },
              { symbol := 0x41, code := 1, num_bits := 1 }]).map Prod.snd := by
  refine ⟨by decide, by decide, by decide, by decide⟩

/-! ## A separator byte inside the packed codes -/

set_option maxRecDepth 4096

/-- C16 (code bug): the loop of `decode` takes the first byte 0x29 for the end
of the bitstream, and `compress` writes packed codes that may hold that byte.
For the input "AAAABBCCDEEEFFG" the 40 code bits pack into the five bytes
0xFF 0x6D 0x29 0x02 0xD8; `decode` consumes the first two, stops at the third,
a byte of packed codes, finds at least 8 bytes after it and returns "AAAABB",
6 of the 15 symbols. -/
theorem decode_stops_inside_bitstream :
    encode_file [0x41, 0x41, 0x41, 0x41, 0x42, 0x42, 0x43, 0x43, 0x44, 0x45, 0x45, 0x45,
        0x46, 0x46, 0x47]
      = .ok (FILE_SIGN ++ [7, 0, 0, 0, 0, 0, 0, 0]
          ++ [0x45, 2, 0] ++ [0x43, 3, 2] ++ [0x42, 3, 3] ++ [0x47, 4, 8] ++ [0x44, 4, 9]
          ++ [0x46, 3, 5] ++ [0x41, 2, 3]
          ++ [GROUP_SEPARATOR] ++ [15, 0, 0, 0, 0, 0, 0, 0] ++ [GROUP_SEPARATOR]
          ++ [0xFF, 0x6D, 0x29, 0x02, 0xD8] ++ [GROUP_SEPARATOR] ++ [40, 0, 0, 0, 0, 0, 0, 0])
      ∧ decode_data [{ symbol := 0x45, code := 0, num_bits := 2 },
            { symbol := 0x43, code := 2, num_bits := 3 }, { symbol := 0x42, code := 3, num_bits := 3 },
            { symbol := 0x47, code := 8, num_bits := 4 }, { symbol := 0x44, code := 9, num_bits := 4 },
            { symbol := 0x46, code := 5, num_bits := 3 }, { symbol := 0x41, code := 3, num_bits := 2 }]
          ([0xFF, 0x6D, 0x29, 0x02, 0xD8] ++ [GROUP_SEPARATOR] ++ [40, 0, 0, 0, 0, 0, 0, 0])
          (0, 0, [])
        = .ok ((1, 2, [0x41, 0x41, 0x41, 0x41, 0x42, 0x42]),
            some ([0x02, 0xD8] ++ [GROUP_SEPARATOR] ++ [40, 0, 0, 0, 0, 0, 0, 0]))
      ∧ encode_decode [0x41, 0x41, 0x41, 0x41, 0x42, 0x42, 0x43, 0x43, 0x44, 0x45, 0x45, 0x45,
          0x46, 0x46, 0x47]
        = .ok [0x41, 0x41, 0x41, 0x41, 0x42, 0x42] := by
  refine ⟨by decide, by decide, by decide⟩

/-! ## Code assignment by depth-first traversal -/

/-- C17: code assignment by depth-first traversal. For a tree in which no
leaf lies deeper than 32, `tree2book` returns one entry per leaf, left to
right (`children[0]` before `children[1]`); the entry holds the symbol of the
leaf, the number its root-to-leaf path spells (0 for a step to `children[0]`,
1 for a step to `children[1]`, first step most significant) as `code`, and
the length of the path, the depth of the leaf, as `num_bits`. -/
theorem tree2book_depth_first (root : Node) (h : root.height ≤ 32) :
    tree2book root = root.paths.map (fun sp =>
      { symbol := sp.1, code := path_value sp.2, num_bits := sp.2.length }) := by
  rw [tree2book_eq_paths]
  apply List.map_congr_left
  intro sp hsp
  have hlen : sp.2.length ≤ 32 := (paths_length_le root sp hsp).trans h
  have hval : path_value sp.2 < 2 ^ sp.2.length := path_value_lt sp.2 (paths_binary root sp hsp)
  have hpow : 2 ^ sp.2.length ≤ 2 ^ 32 := Nat.pow_le_pow_right (by norm_num) hlen
  simp only [path_entry, Nat.zero_mul, Nat.zero_add]
  rw [Nat.mod_eq_of_lt (by omega), Nat.mod_eq_of_lt (by omega)]

theorem tree2book_depth_first_witness :
    tree2book (Node.inner 11 (Node.leaf 0x41 4)
        (Node.inner 7 (Node.leaf 0x43 3) (Node.inner 4 (Node.inner 2 (Node.leaf 0x45 1) (Node.leaf 0x42 1))
          (Node.leaf 0x44 2))))
      = [{ symbol := 0x41, code := 0, num_bits := 1 }, { symbol := 0x43, code := 2, num_bits := 2 },
         { symbol := 0x45, code := 12, num_bits := 4 }, { symbol := 0x42, code := 13, num_bits := 4 },
         { symbol := 0x44, code := 7, num_bits := 3 }] :=
  tree2book_depth_first _ (by decide)

/-! ## Lookup by code and length -/

/-- C18 (code bug): `search_code` scans with a `uint8_t` index against the
64-bit `num_symbols`. With fewer than 256 entries it returns the first entry
that matches both the code and the length, and no entry when none matches.
With 256 entries or more the test `i < book->num_symbols` holds for every
value of the index, so when none of the first 256 entries matches both the
scan never returns, where `NULL` was due. -/
theorem search_code_scan (book : List CodeTable) (code len : Nat) :
    (book.length < 256 →
        search_code book code len
          = .ok (book.find? (fun t => t.code == code && t.num_bits == len)))
      ∧ (256 ≤ book.length →
          (∀ t ∈ book.take 256, ¬ (t.code = code ∧ t.num_bits = len)) →
            search_code book code len = .error .endless_loop) := by
  refine ⟨fun hlen => search_code_eq_find book code len hlen, fun hlen hno => ?_⟩
  apply search_loop_miss book _ hlen _ 256 0 (by omega)
  intro t ht
  have := hno t ht
  simp only [Bool.and_eq_false_imp, beq_iff_eq, beq_eq_false_iff_ne, ne_eq]
  intro hc hn
  exact this ⟨hc, hn⟩

theorem search_code_scan_witness :
    full_book.length = 256 ∧ search_code full_book 0 1 = .error .endless_loop :=
  ⟨by simp [full_book],
    (search_code_scan full_book 0 1).2 (by simp [full_book]) (by
      intro t ht
      have hmem := List.mem_of_mem_take ht
      simp only [full_book, List.mem_map, List.mem_range] at hmem
      obtain ⟨s, _, rfl⟩ := hmem
      simp)⟩

/-! ## Ties between equal frequencies -/

/-- C19 (as amended): `add_node` links the new node in before the first node
whose frequency is not smaller than its own: in a list sorted by frequency it
comes after every node of smaller frequency and before every node of equal or
greater frequency. `build_tree` takes the nodes off the list in the order of
the list, two per pass, the first as `children[0]` and the second as
`children[1]` of the node it makes; so the new node is taken before every
node of equal frequency that was in the list. A new node whose frequency
equals that of the first node becomes the first node, and the first pass takes
it as `children[0]` and the old first node as `children[1]`. -/
theorem add_node_before_equal (l : List Node) (n : Node) (hs : sorted_freqs l) :
    (∃ pre post, l = pre ++ post ∧ add_node l n = pre ++ n :: post
        ∧ (∀ x ∈ pre, x.freqs < n.freqs) ∧ (∀ x ∈ post, n.freqs ≤ x.freqs))
      ∧ (add_node l n).Sublist (take_order (add_node l n).length (add_node l n))
      ∧ (∀ e ∈ l, e.freqs = n.freqs →
          [n, e].Sublist (take_order (add_node l n).length (add_node l n)))
      ∧ (∀ (fuel : Nat) (a b : Node) (rest : List Node),
          build_loop (fuel + 1) (a :: b :: rest)
              = build_loop fuel (add_node (a :: rest) (Node.inner (a.freqs + b.freqs) a b)).tail
            ∧ take_order (fuel + 1) (a :: b :: rest)
              = a :: b
                :: take_order fuel (add_node (a :: rest) (Node.inner (a.freqs + b.freqs) a b)).tail)
      ∧ (∀ e rest, l = e :: rest → e.freqs = n.freqs →
          add_node l n = n :: e :: rest
            ∧ build_tree (add_node l n)
                = build_loop (rest.length + 1)
                    (add_node (n :: rest) (Node.inner (n.freqs + e.freqs) n e)).tail) := by
  have hsplit : add_node l n = l.takeWhile (fun x => decide (x.freqs < n.freqs))
      ++ n :: l.dropWhile (fun x => decide (x.freqs < n.freqs)) := add_node_split l n
  have hpre : ∀ x ∈ l.takeWhile (fun x => decide (x.freqs < n.freqs)), x.freqs < n.freqs := by
    intro x hx
    simpa using List.mem_takeWhile_imp hx
  have horder := sublist_take_order (add_node l n).length (add_node l n) (Nat.le_succ _)
  refine ⟨⟨_, _, (List.takeWhile_append_dropWhile _ l).symm, hsplit, hpre,
    dropWhile_sorted_ge n.freqs l hs⟩, horder, fun e he hfe => ?_, fun fuel a b rest => ⟨rfl, rfl⟩,
    fun e rest hl he => ?_⟩
  · refine List.Sublist.trans ?_ horder
    rw [hsplit]
    have hmem : e ∈ l.dropWhile (fun x => decide (x.freqs < n.freqs)) := by
      have hl : e ∈ l.takeWhile (fun x => decide (x.freqs < n.freqs))
          ++ l.dropWhile (fun x => decide (x.freqs < n.freqs)) := by
        rw [List.takeWhile_append_dropWhile]
        exact he
      rcases List.mem_append.mp hl with h1 | h2
      · have := hpre e h1
        omega
      · exact h2
    have h2 : [n, e].Sublist (n :: l.dropWhile (fun x => decide (x.freqs < n.freqs))) :=
      (List.singleton_sublist.mpr hmem).cons₂ n
    exact h2.trans (List.sublist_append_right _ _)
  · subst hl
    have h1 : add_node (e :: rest) n = n :: e :: rest := by
      simp only [add_node]
      rw [if_pos (by omega)]
    refine ⟨h1, ?_⟩
    rw [h1]
    rfl

theorem add_node_before_equal_witness :
    add_node [Node.leaf 0x42 1, Node.leaf 0x41 2] (Node.leaf 0x43 1)
        = [Node.leaf 0x43 1, Node.leaf 0x42 1, Node.leaf 0x41 2]
      ∧ [Node.leaf 0x43 1, Node.leaf 0x42 1].Sublist
          (take_order 3 [Node.leaf 0x43 1, Node.leaf 0x42 1, Node.leaf 0x41 2])
      ∧ build_tree (add_node [Node.leaf 0x42 1, Node.leaf 0x41 2] (Node.leaf 0x43 1))
        = some (Node.inner 4 (Node.inner 2 (Node.leaf 0x43 1) (Node.leaf 0x42 1))
            (Node.leaf 0x41 2)) :=
  ⟨((add_node_before_equal [Node.leaf 0x42 1, Node.leaf 0x41 2] (Node.leaf 0x43 1)
      (by simp [sorted_freqs, Node.freqs])).2.2.2.2 (Node.leaf 0x42 1) [Node.leaf 0x41 2]
        rfl rfl).1,
    (add_node_before_equal [Node.leaf 0x42 1, Node.leaf 0x41 2] (Node.leaf 0x43 1)
      (by simp [sorted_freqs, Node.freqs])).2.2.1 (Node.leaf 0x42 1) (by simp) rfl,
    by decide⟩

/-- C19 (counterexample): the leaf B, added to the list that holds the leaf A
of the same frequency 1, is placed before A, not after it; `build_tree` then
takes B, inserted later, as `children[0]` and A as `children[1]`. And being
taken first does not make a node `children[0]`: the leaf N of frequency 3,
added to the list of X (frequency 1) and E (frequency 3), is placed between
them and is taken in the first pass as the second node, so it becomes
`children[1]` of the node made there. -/
theorem add_node_tie_not_stable :
    sorted_freqs [Node.leaf 0x41 1]
      ∧ add_node [Node.leaf 0x41 1] (Node.leaf 0x42 1) = [Node.leaf 0x42 1, Node.leaf 0x41 1]
      ∧ add_node [Node.leaf 0x41 1] (Node.leaf 0x42 1) ≠ [Node.leaf 0x41 1, Node.leaf 0x42 1]
      ∧ build_tree (add_node [Node.leaf 0x41 1] (Node.leaf 0x42 1))
          = some (Node.inner 2 (Node.leaf 0x42 1) (Node.leaf 0x41 1))
      ∧ add_node [Node.leaf 0x58 1, Node.leaf 0x45 3] (Node.leaf 0x4e 3)
          = [Node.leaf 0x58 1, Node.leaf 0x4e 3, Node.leaf 0x45 3]
      ∧ build_tree (add_node [Node.leaf 0x58 1, Node.leaf 0x45 3] (Node.leaf 0x4e 3))
          = some (Node.inner 7 (Node.leaf 0x45 3)
              (Node.inner 4 (Node.leaf 0x58 1) (Node.leaf 0x4e 3))) := by
  refine ⟨by simp [sorted_freqs], by decide, by decide, by decide, by decide, by decide⟩

/-! ## Shape of the tree -/

/-- C20: tree shape. For a list of N >= 2 leaves in ascending order of
frequency, all frequencies at least 1, `build_tree` returns a root; the tree
below it has exactly the given leaves, each once, N - 1 inner nodes and
2N - 1 nodes in all; every inner node carries the sum of the frequencies of
its two children, and the root the sum of all leaf frequencies. Every pass of
the loop takes the first node `a` and the second node `b` off the list and
puts the node with `children[0] = a`, `children[1] = b` and frequency
`a.freqs + b.freqs` into it. -/
theorem build_tree_shape (leaves : List (Nat × Nat)) (h2 : 2 ≤ leaves.length)
    (hs : List.Pairwise (fun x y : Nat × Nat => x.2 ≤ y.2) leaves)
    (h1 : ∀ sf ∈ leaves, 1 ≤ sf.2) :
    ∃ root, build_tree (leaves.map (fun sf => Node.leaf sf.1 sf.2)) = some root
      ∧ root.leaves.Perm leaves
      ∧ root.inner_count = leaves.length - 1
      ∧ root.node_count = 2 * leaves.length - 1
      ∧ root.consistent
      ∧ root.freqs = (leaves.map Prod.snd).sum
      ∧ ∀ (fuel : Nat) (a b : Node) (rest : List Node), 1 ≤ b.freqs →
          build_loop (fuel + 1) (a :: b :: rest) = build_loop fuel (build_step a b rest)
            ∧ (build_step a b rest).Perm (Node.inner (a.freqs + b.freqs) a b :: rest) := by
  have hne : leaves.map (fun sf => Node.leaf sf.1 sf.2) ≠ [] := by
    intro h
    rw [List.map_eq_nil_iff] at h
    rw [h] at h2
    simp at h2
  have hsorted : sorted_freqs (leaves.map (fun sf => Node.leaf sf.1 sf.2)) := by
    simp only [sorted_freqs, List.pairwise_map]
    exact hs
  have hinv : ∀ n ∈ leaves.map (fun sf => Node.leaf sf.1 sf.2), n.consistent ∧ 1 ≤ n.freqs := by
    intro n hn
    obtain ⟨sf, hsf, rfl⟩ := List.mem_map.mp hn
    exact ⟨trivial, h1 sf hsf⟩
  obtain ⟨root, hroot, hcons, hperm, _⟩ := build_tree_optimal _ hne hsorted hinv
  rw [flatMap_leaves_leaf] at hperm
  have hlen : root.leaves.length = leaves.length := hperm.length_eq
  have hic := leaves_length root
  have hnc := node_count_eq root
  refine ⟨root, hroot, hperm, by omega, by omega, hcons, ?_, ?_⟩
  · rw [freqs_eq_weight root hcons, weight_eq_sum]
    exact (hperm.map Prod.snd).sum_eq
  · intro fuel a b rest hb
    exact ⟨rfl, build_step_perm a b rest hb⟩

theorem build_tree_shape_witness :
    ∃ root, build_tree ([(0x42, 1), (0x45, 1), (0x44, 2), (0x43, 3), (0x41, 4)].map
          (fun sf => Node.leaf sf.1 sf.2)) = some root
      ∧ root.leaves.Perm [(0x42, 1), (0x45, 1), (0x44, 2), (0x43, 3), (0x41, 4)]
      ∧ root.inner_count = 4
      ∧ root.node_count = 9
      ∧ root.consistent
      ∧ root.freqs = 11 := by
  obtain ⟨root, h1, h2, h3, h4, h5, h6, _⟩ :=
    build_tree_shape [(0x42, 1), (0x45, 1), (0x44, 2), (0x43, 3), (0x41, 4)] (by decide)
      (by decide) (by decide)
  exact ⟨root, h1, h2, h3, h4, h5, h6⟩

/-! ## MSB-first packing -/

/-- C21: MSB-first packing. A run of calls of `write_code`, one per entry of
`ts`, started with the statics of `write_bit` at their initial values, emits
the bytes `pack_bits` cuts out of the concatenation of the codes (each code as
its `num_bits` bits, most significant first): one byte per full group of 8
bits, the first bit of the group in the most significant position. After n
bits n / 8 bytes are out and the n % 8 bits of the last, incomplete group wait
in the high-order positions of the accumulator; after a multiple of 8 bits the
statics are back at their initial values. The entries have `num_bits ≤ 32`,
the width of `code`, so that every shift `code >> (num_bits - i - 1)` of
`write_code` is by less than 32. -/
theorem write_code_msb_first (ts : List CodeTable) (hbits : ∀ t ∈ ts, t.num_bits ≤ 32) :
    ts.foldl (fun st t => write_code t st) (BitWriter.fresh, [])
        = (BitWriter.holding (pending_bits (ts.flatMap code_bits)),
            pack_bits (ts.flatMap code_bits))
      ∧ (ts.flatMap code_bits).length = (ts.map CodeTable.num_bits).sum
      ∧ (pack_bits (ts.flatMap code_bits)).length = (ts.flatMap code_bits).length / 8
      ∧ (pending_bits (ts.flatMap code_bits)).length = (ts.flatMap code_bits).length % 8
      ∧ ((ts.flatMap code_bits).length % 8 = 0 →
          (ts.foldl (fun st t => write_code t st) (BitWriter.fresh, [])).1 = BitWriter.fresh)
      ∧ (∀ t ∈ ts, ∀ i < t.num_bits, t.num_bits - i - 1 < 32) := by
  have hshift : ∀ t ∈ ts, ∀ i < t.num_bits, t.num_bits - i - 1 < 32 := by
    intro t ht i _
    have := hbits t ht
    omega
  have hbin : ∀ b ∈ ts.flatMap code_bits, b < 2 := by
    intro b hb
    obtain ⟨t, _, hbt⟩ := List.mem_flatMap.mp hb
    exact code_bits_from_binary t.code t.num_bits b hbt
  obtain ⟨h1, h2, h3⟩ := write_bits_pack _ (ts.flatMap code_bits) [] (Nat.le_refl _) hbin
  rw [List.nil_append] at h1
  rw [write_codes_eq_bits]
  refine ⟨h1, code_bits_total ts, h2, h3, fun h8 => ?_, hshift⟩
  rw [h1]
  have hnil : pending_bits (ts.flatMap code_bits) = [] :=
    List.length_eq_zero.mp (by rw [h3]; exact h8)
  rw [hnil]
  rfl

theorem write_code_msb_first_witness :
    [({ symbol := 0x41, code := 0, num_bits := 1 } : CodeTable),
        { symbol := 0x42, code := 13, num_bits := 4 }, { symbol := 0x44, code := 7, num_bits := 3 },
        { symbol := 0x43, code := 2, num_bits := 2 }].foldl (fun st t => write_code t st)
        (BitWriter.fresh, [])
      = ({ byte := 0x80, bit_idx := 6 }, [0x6F]) :=
  (write_code_msb_first [{ symbol := 0x41, code := 0, num_bits := 1 },
    { symbol := 0x42, code := 13, num_bits := 4 }, { symbol := 0x44, code := 7, num_bits := 3 },
    { symbol := 0x43, code := 2, num_bits := 2 }] (by decide)).1

/-! ## Sorted-list invariant -/

/-- C22: sorted-list invariant. For a node list in ascending order of
frequency (the empty list included) and any node, the list `add_node` returns
is in ascending order of frequency and is the old list with the new node put
in at one place: the old nodes are all there, in their old order, and nothing
else is added. Hence the list of leaves that `init_tree_from_buf` builds with
`add_node`, starting from the empty list, is in ascending order of
frequency. -/
theorem add_node_keeps_sorted (l : List Node) (n : Node) (hs : sorted_freqs l) :
    sorted_freqs (add_node l n)
      ∧ (add_node l n).Perm (n :: l)
      ∧ (∃ pre post, l = pre ++ post ∧ add_node l n = pre ++ n :: post)
      ∧ ∀ buf : List Nat, sorted_freqs (init_tree_from_buf buf).root := by
  refine ⟨add_node_sorted l n hs, add_node_perm l n, ?_, fun buf => ?_⟩
  · exact ⟨l.takeWhile (fun x => decide (x.freqs < n.freqs)),
      l.dropWhile (fun x => decide (x.freqs < n.freqs)),
      (List.takeWhile_append_dropWhile _ l).symm, add_node_split l n⟩
  · simp only [init_tree_from_buf]
    exact add_leaves_sorted _ _ [] List.Pairwise.nil

theorem add_node_keeps_sorted_witness :
    sorted_freqs (add_node [Node.leaf 0x42 1, Node.leaf 0x43 3] (Node.leaf 0x44 2))
      ∧ add_node [Node.leaf 0x42 1, Node.leaf 0x43 3] (Node.leaf 0x44 2)
          = [Node.leaf 0x42 1, Node.leaf 0x44 2, Node.leaf 0x43 3]
      ∧ add_node [] (Node.leaf 0x44 2) = [Node.leaf 0x44 2]
      ∧ leaf_list [(0x24, 7), (0x61, 6), (0x62, 5), (0x62, 4), (0x63, 3), (0x63, 2), (0x63, 1)]
          = [Node.leaf 0x63 1, Node.leaf 0x63 2, Node.leaf 0x63 3, Node.leaf 0x62 4,
              Node.leaf 0x62 5, Node.leaf 0x61 6, Node.leaf 0x24 7] :=
  ⟨(add_node_keeps_sorted [Node.leaf 0x42 1, Node.leaf 0x43 3] (Node.leaf 0x44 2)
      (by simp [sorted_freqs, Node.freqs])).1, by decide, by decide, by decide⟩

end Huffman
